import Mathlib

/-!
Verification of the wazm module analyzer: a shallow embedding of
`src/lib/parse.rs` (module loader) and `src/lib/analysis.rs` (analysis
engine), with theorems settling the specification claims.

Machine integers (`usize`, `u32`, `u64`, `u16`) are modelled as `Nat`:
none of the verified operations can overflow on well-formed inputs
(sizes and counts are bounded by the file size, far below 2^64), and
where a width limit does matter (the 4-byte LEB128 buffer in
`track_size`) it is modelled explicitly.  Fallible Rust code returning
`Result` (and panics) is modelled with `Option`/`Except`.
-/

namespace Wazm

/-! ## Operators and payloads

`wasmparser` is an external crate: its payload stream is modelled
abstractly.  An `Operator` is either a direct call (the one variant
`add_function` inspects) or any other operator identified by its
mnemonic; `Operator.mnemonic` models
`format!("{:?}", operator).split_whitespace().next()`, which yields the
variant name, e.g. `"Call"` for `Operator::Call { .. }`. -/

inductive Operator where
  | call (function_index : Nat)
  | other (mnemonic : String)
  deriving DecidableEq, Repr

def Operator.mnemonic : Operator → String
  | .call _ => "Call"
  | .other s => s

/-- One entry of the import section: `import.ty` matched against
`TypeRef::Func(_)`, plus `import.name`. -/
structure ImportEntry where
  isFunc : Bool
  name : String
  deriving DecidableEq, Repr

/-- One entry of the export section: `export.kind` matched against
`ExternalKind::Func`, plus `export.index` and `export.name`. -/
structure ExportEntry where
  isFunc : Bool
  index : Nat
  name : String
  deriving DecidableEq, Repr

/-- One element-section segment: whether `element.ty` is
`RefType::FUNCREF` or `RefType::FUNC`, and `element.items` when they are
a `Functions(..)` function-index list (`none` models an expression
list). -/
structure ElementSegment where
  isFuncRef : Bool
  functionItems : Option (List Nat)
  deriving DecidableEq, Repr

/-- A byte range in the source buffer, `range.start` and `range.end`. -/
structure ByteRange where
  start : Nat
  stop : Nat
  deriving DecidableEq, Repr

/-- The payload variants `analyze` distinguishes.  All section kinds that
the `analyze` match handles with a bare
`add_section(name, count, range)` call (type, function, table, memory,
global, data, custom, component, unknown, ...) behave identically there
and are represented by `genericSection` carrying the type label;
`version` is the magic/version pseudo-section (its range is always the
first 8 bytes of the file); `endMarker` is the `End(_)` payload. -/
inductive Payload where
  | version (num : Nat)
  | codeSectionStart (count : Nat) (range : ByteRange)
  | codeSectionEntry (body : List Operator)
  | importSection (imports : List ImportEntry) (count : Nat) (range : ByteRange)
  | exportSection (exports : List ExportEntry) (count : Nat) (range : ByteRange)
  | elementSection (elements : List ElementSegment) (count : Nat) (range : ByteRange)
  | genericSection (section_type : String) (item_count : Option Nat) (range : ByteRange)
  | endMarker
  deriving DecidableEq, Repr

/-! ## Module loader (`parse.rs`) -/

/-- `Module` from `parse.rs` (there the payload list field is named
`payloads`; `analysis.rs` and the spec call it `sections`). -/
structure Module where
  source : String
  version : Nat
  file_size : Nat
  sections : List Payload
  deriving Repr

inductive ParseError where
  | unexpectedPayload
  | invalidVersion
  deriving DecidableEq, Repr

/-- `Module::add_payload`: record the number of a `Version` payload, and
push every payload. -/
def Module.add_payload (m : Module) (p : Payload) : Module :=
  match p with
  | .version num => { m with version := num, sections := m.sections ++ [p] }
  | _ => { m with sections := m.sections ++ [p] }

/-- `Module::validate`: fail iff the recorded version is zero. -/
def Module.validate (m : Module) : Except ParseError Module :=
  if m.version = 0 then .error .invalidVersion else .ok m

/-- One iteration of `Module::parse`'s loop: `Ok(End(_))` is skipped,
any other `Ok` payload is added, an `Err` aborts the parse. -/
def parsePayloadStep (m : Module) (p? : Option Payload) : Except ParseError Module :=
  match p? with
  | some Payload.endMarker => Except.ok m
  | some p => Except.ok (m.add_payload p)
  | none => Except.error ParseError.unexpectedPayload

/-- `Module::parse`: the stream delivered by `wasmparser::Parser::parse_all`
is a list of results (`none` models an `Err` item).  `End` payloads are
skipped, any `Err` aborts, then the module is validated. -/
def Module.parse (source : String) (file_size : Nat)
    (stream : List (Option Payload)) : Except ParseError Module :=
  (stream.foldlM parsePayloadStep
    { source := source, version := 0, file_size := file_size, sections := [] }).bind
    Module.validate

def versionStep (v : Nat) (p? : Option Payload) : Nat :=
  match p? with
  | some (.version n) => n
  | _ => v

/-- The version number the loader ends up recording: the `num` of the
last `Version` payload in the stream, or 0 if there is none. -/
def recordedVersion (stream : List (Option Payload)) : Nat :=
  stream.foldl versionStep 0

/-! ## Ordered containers

`BTreeMap` is modelled as an association list kept sorted by key
(its iteration order); `HashMap<usize, Vec<usize>>` as an association
list with unique keys (iteration order is irrelevant to the claims);
`Vec::sort` + `Vec::dedup` as insertion sort followed by removal of
consecutive duplicates. -/

def insertSortedNat (x : Nat) : List Nat → List Nat
  | [] => [x]
  | y :: ys => if x ≤ y then x :: y :: ys else y :: insertSortedNat x ys

def sortNat (l : List Nat) : List Nat := l.foldr insertSortedNat []

def dedupConsec : List Nat → List Nat
  | [] => []
  | [x] => [x]
  | x :: y :: rest =>
    if x = y then dedupConsec (y :: rest) else x :: dedupConsec (y :: rest)

/-- `v.sort(); v.dedup();` -/
def sortDedup (l : List Nat) : List Nat := dedupConsec (sortNat l)

/-- Strict lexicographic order on codepoint lists (for ASCII labels this
is exactly Rust's byte-lexicographic `Ord` on `String`). -/
def natListLt : List Nat → List Nat → Bool
  | [], [] => false
  | [], _ :: _ => true
  | _ :: _, [] => false
  | a :: as, b :: bs => if a < b then true else if b < a then false else natListLt as bs

def charCodes (s : String) : List Nat := s.data.map Char.toNat

/-- Rust's `String` ordering (`BTreeMap`'s key order). -/
def strLt (a b : String) : Bool := natListLt (charCodes a) (charCodes b)

def natListStarts : List Nat → List Nat → Bool
  | [], _ => true
  | _ :: _, [] => false
  | a :: as, b :: bs => if a = b then natListStarts as bs else false

/-- `section_type.starts_with("Magic")`. -/
def startsWithMagic (s : String) : Bool := natListStarts (charCodes "Magic") (charCodes s)

/-- `BTreeMap<usize, String>::insert` on a key-sorted association list. -/
def btreeInsertNat (k : Nat) (v : String) : List (Nat × String) → List (Nat × String)
  | [] => [(k, v)]
  | (k', v') :: rest =>
    if k < k' then (k, v) :: (k', v') :: rest
    else if k = k' then (k, v) :: rest
    else (k', v') :: btreeInsertNat k v rest

/-- `BTreeMap<String, u64>`: `entry(k).and_modify(|c| *c += 1).or_insert(1)`
on a key-sorted association list. -/
def btreeTally (k : String) : List (String × Nat) → List (String × Nat)
  | [] => [(k, 1)]
  | (k', c) :: rest =>
    if strLt k k' then (k, 1) :: (k', c) :: rest
    else if k = k' then (k', c + 1) :: rest
    else (k', c) :: btreeTally k rest

def assocLookup (l : List (Nat × List Nat)) (k : Nat) : Option (List Nat) :=
  (l.find? (fun kv => kv.1 = k)).map (fun kv => kv.2)

def assocUpdate (l : List (Nat × List Nat)) (k : Nat) (v : List Nat) :
    List (Nat × List Nat) :=
  l.map (fun kv => if kv.1 = k then (k, v) else kv)

/-! ## Analysis engine (`analysis.rs`) -/

/-- `Section` record pushed by `Analysis::add_section`.
`header_location` is `range.start - header_size` (truncated `Nat`
subtraction; on a well-formed module the header precedes the content so
no underflow occurs). -/
structure Section where
  section_type : String
  header_location : Nat
  item_count : Option Nat
  range : ByteRange
  size : Nat
  deriving DecidableEq, Repr

/-- The `Analysis` struct. -/
structure Analysis where
  include_functions : Bool := false
  implemented_function_count : Nat := 0
  imported_functions : List (Nat × String) := []
  exported_functions : List (Nat × String) := []
  include_function_call_tree : Bool := false
  static_function_calls : List (Nat × List Nat) := []
  dynamic_dispatch_functions : List Nat := []
  include_sections : Bool := false
  sections : List Section := []
  sections_size_total : Nat := 0
  include_operators : Bool := false
  operator_usage : List (String × Nat) := []
  sorted_operator_usage : List (String × Nat) := []
  operator_count : Nat := 0
  deriving Repr

/-- Number of bytes of the unsigned LEB128 encoding
(`leb128::write::unsigned` emits one byte per 7-bit group, at least
one).  Structural recursion on a fuel argument so the definition
computes inside the kernel; `n` itself always suffices as fuel because
each division by 128 shrinks the value by more than the fuel does. -/
def leb128LenGo : Nat → Nat → Nat
  | _, 0 => 1
  | 0, _ => 1
  | fuel + 1, n => if n < 128 then 1 else 1 + leb128LenGo fuel (n / 128)

def leb128Len (n : Nat) : Nat := leb128LenGo n n

/-- `Analysis::track_size`: add the content size to the running total,
then the reconstructed header size (`0` for a `Magic`-prefixed section
type, otherwise the LEB128 length of the size plus one type byte).  The
LEB128 value is written into a 4-byte buffer; a size needing 5 or more
bytes (`size ≥ 2^28`) makes `leb128::write::unsigned` fail and the
`.expect` panic, modelled as `none`.  Returns the header size. -/
def track_size (a : Analysis) (section_type : String) (range : ByteRange) :
    Option (Analysis × Nat) :=
  let size := range.stop - range.start
  let a := { a with sections_size_total := a.sections_size_total + size }
  let header? : Option Nat :=
    if startsWithMagic section_type then some 0
    else if leb128Len size ≤ 4 then some (leb128Len size + 1) else none
  header?.map fun h =>
    ({ a with sections_size_total := a.sections_size_total + h }, h)

/-- `Analysis::add_section`: only when `include_sections` is set, track
sizes and push a `Section` record. -/
def add_section (a : Analysis) (section_type : String) (item_count : Option Nat)
    (range : ByteRange) : Option Analysis :=
  if a.include_sections then
    (track_size a section_type range).map fun ah =>
      { ah.1 with sections := ah.1.sections ++
          [{ section_type := section_type,
             header_location := range.start - ah.2,
             item_count := item_count,
             range := range,
             size := range.stop - range.start }] }
  else some a

/-- The body of `add_elements`' per-segment loop: a segment whose type
is a function reference and whose items are a `Functions` list
*assigns* (overwrites) `dynamic_dispatch_functions` with its sorted,
deduplicated index list. -/
def add_elements_entry (a : Analysis) (e : ElementSegment) : Analysis :=
  if e.isFuncRef then
    match e.functionItems with
    | some fns => { a with dynamic_dispatch_functions := sortDedup fns }
    | none => a
  else a

/-- `Analysis::add_elements`. -/
def add_elements (a : Analysis) (elements : List ElementSegment) (count : Nat)
    (range : ByteRange) : Option Analysis :=
  (add_section a "ElementSection" (some count) range).map fun a =>
    elements.foldl add_elements_entry a

/-- `Analysis::add_function_call`:
`entry(caller).and_modify(|v| if !v.contains(&called) { v.push(called) }).or_insert(vec!())`.
Note the vacant branch inserts an *empty* vector: the first call edge of
a caller is not recorded. -/
def add_function_call (calls : List (Nat × List Nat)) (caller_index called_index : Nat) :
    List (Nat × List Nat) :=
  match assocLookup calls caller_index with
  | some v =>
    assocUpdate calls caller_index (if called_index ∈ v then v else v ++ [called_index])
  | none => calls ++ [(caller_index, [])]

/-- `Analysis::add_function`: skip unless `include_functions`; otherwise
walk the operator stream (already decoded here; a decode failure aborts
the whole analysis before this point), recording direct-call edges and,
when `include_operators`, tallying every operator's mnemonic; finally
bump the implemented-function count and the shared function index. -/
def add_function_op (index : Nat) (a : Analysis) (op : Operator) : Analysis :=
  let a := match op with
    | .call fi =>
      { a with static_function_calls := add_function_call a.static_function_calls index fi }
    | .other _ => a
  if a.include_operators then
    { a with operator_usage := btreeTally op.mnemonic a.operator_usage,
             operator_count := a.operator_count + 1 }
  else a

def add_function (a : Analysis) (body : List Operator) (index : Nat) :
    Analysis × Nat :=
  if a.include_functions = false then (a, index)
  else
    let a := body.foldl (add_function_op index) a
    ({ a with implemented_function_count := a.implemented_function_count + 1 }, index + 1)

def add_exports_entry (a : Analysis) (e : ExportEntry) : Analysis :=
  if e.isFunc then
    { a with exported_functions := btreeInsertNat e.index e.name a.exported_functions }
  else a

/-- `Analysis::add_exports`. -/
def add_exports (a : Analysis) (exports : List ExportEntry) (count : Nat)
    (range : ByteRange) : Option Analysis :=
  (add_section a "ExportSection" (some count) range).map fun a =>
    if a.include_functions then exports.foldl add_exports_entry a
    else a

def add_imports_entry (st : Analysis × Nat) (imp : ImportEntry) : Analysis × Nat :=
  if imp.isFunc then
    ({ st.1 with imported_functions := btreeInsertNat st.2 imp.name st.1.imported_functions },
     st.2 + 1)
  else st

/-- `Analysis::add_imports`: threads the shared `function_index` counter,
incrementing it for every function-kind import. -/
def add_imports (a : Analysis) (imports : List ImportEntry) (count : Nat)
    (range : ByteRange) (function_index : Nat) : Option (Analysis × Nat) :=
  (add_section a "ImportSection" (some count) range).map fun a =>
    if a.include_functions then imports.foldl add_imports_entry (a, function_index)
    else (a, function_index)

/-- Stable insertion (descending by count) used to model the stable
`vec.sort_by(|a, b| b.1.cmp(&a.1))`. -/
def insertByCountDesc (x : String × Nat) : List (String × Nat) → List (String × Nat)
  | [] => [x]
  | y :: ys => if y.2 ≤ x.2 then x :: y :: ys else y :: insertByCountDesc x ys

/-- Stable sort, descending by count (`Vec::sort_by` is stable). -/
def sortByCountDesc (l : List (String × Nat)) : List (String × Nat) :=
  l.foldr insertByCountDesc []

/-- `Analysis::post_process`: collect the histogram in `BTreeMap`
iteration order (ascending key) and stable-sort it descending by count. -/
def post_process (a : Analysis) : Analysis :=
  { a with sorted_operator_usage := sortByCountDesc a.operator_usage }

/-- One arm of the `match payload` in `analyze`, threading
`(analysis, function_index)`.  `End` payloads `bail!`. -/
def analyzeStep (st : Analysis × Nat) (p : Payload) : Option (Analysis × Nat) :=
  match p with
  | .codeSectionStart count r =>
    (add_section st.1 "CodeSectionStart" (some count) r).map (fun a => (a, st.2))
  | .codeSectionEntry body => some (add_function st.1 body st.2)
  | .importSection imports count r => add_imports st.1 imports count r st.2
  | .exportSection exports count r =>
    (add_exports st.1 exports count r).map (fun a => (a, st.2))
  | .elementSection elements count r =>
    (add_elements st.1 elements count r).map (fun a => (a, st.2))
  | .genericSection ty c r => (add_section st.1 ty c r).map (fun a => (a, st.2))
  | .version _ => some ({ st.1 with sections_size_total := st.1.sections_size_total + 8 }, st.2)
  | .endMarker => none

/-- `analyze` up to (but not including) `post_process`, also exposing the
final function-index counter. -/
def analyzeCore (m : Module) (include_sections include_functions include_operators
    include_function_call_tree : Bool) : Option (Analysis × Nat) :=
  m.sections.foldlM analyzeStep
    ({ include_sections := include_sections,
       include_functions := include_functions,
       include_operators := include_operators,
       include_function_call_tree := include_function_call_tree }, 0)

/-- `analyze`: single pass over the payloads, then `post_process`. -/
def analyze (m : Module) (include_sections include_functions include_operators
    include_function_call_tree : Bool) : Option Analysis :=
  (analyzeCore m include_sections include_functions include_operators
    include_function_call_tree).map (fun st => post_process st.1)

/-! ## Display-time computations (`impl fmt::Display for Analysis`) -/

/-- The deduplicated sorted list of all callee indices
(`called_functions` in `Display::fmt`). -/
def calledFunctions (a : Analysis) : List Nat :=
  sortDedup (a.static_function_calls.foldl (fun acc kv => acc ++ kv.2) [])

/-- The uncalled-function list exactly as `Display::fmt` computes it:
candidates are `0..implemented_function_count`, then callees, imported,
exported and dynamic-dispatch indices are removed, then the list is
sorted. -/
def uncalledFunctions (a : Analysis) : List Nat :=
  let all := List.range a.implemented_function_count
  let all := all.filter (fun e => ¬ e ∈ calledFunctions a)
  let all := all.filter (fun e => ¬ (a.imported_functions.any (fun kv => kv.1 = e)))
  let all := all.filter (fun e => ¬ (a.exported_functions.any (fun kv => kv.1 = e)))
  let all := all.filter (fun e => ¬ e ∈ a.dynamic_dispatch_functions)
  sortNat all

/-! ## Call-tree rendering (`print_called_list`)

The Rust function recurses without an explicit bound; the embedding
takes a fuel argument (`none` = fuel exhausted) and the termination
claim is settled by proving a concrete fuel always suffices.  A rendered
line is `(level, index, cyclic?)`, where `level` is the length of the
active call chain when the line is emitted. -/

structure TreeLine where
  level : Nat
  index : Nat
  cyclic : Bool
  deriving DecidableEq, Repr

/-- The body of `print_called_list`'s `for called in called_list` loop:
a callee already on the chain renders as a cyclic terminus; otherwise a
normal line followed by the recursive rendering (`child`, one fuel level
down) of the callee's own called list under the extended chain. -/
def renderStep (g : List (Nat × List Nat))
    (child : List Nat → List Nat → Option (List TreeLine)) :
    List Nat → List Nat → Option (List TreeLine)
  | _, [] => some []
  | chain, called :: rest =>
    if called ∈ chain then
      (renderStep g child chain rest).map
        (fun t => { level := chain.length, index := called, cyclic := true } :: t)
    else
      match child (chain ++ [called]) ((assocLookup g called).getD []) with
      | none => none
      | some sub =>
        (renderStep g child chain rest).map
          (fun t => { level := chain.length, index := called, cyclic := false } :: (sub ++ t))

/-- The recursion of `print_called_list`, with a fuel bound on the
recursion depth (`none` = fuel exhausted; the Rust function recurses
without a bound and the termination claim is settled by proving a
concrete fuel always suffices). -/
def renderCallees (g : List (Nat × List Nat)) :
    Nat → List Nat → List Nat → Option (List TreeLine)
  | 0 => renderStep g (fun _ _ => none)
  | fuel + 1 => renderStep g (renderCallees g fuel)

/-- `Analysis::print_called_list` on the call graph `g`: look up the last
element of the chain (`1` if the chain is empty) and walk its callee
list. -/
def print_called_list (g : List (Nat × List Nat)) (fuel : Nat) (chain : List Nat) :
    Option (List TreeLine) :=
  renderCallees g fuel chain ((assocLookup g (chain.getLast?.getD 1)).getD [])

/-- A fuel bound sufficient for any chain: one more than the number of
distinct callee indices in the graph. -/
def callTreeFuel (g : List (Nat × List Nat)) : Nat :=
  ((g.flatMap (fun kv => kv.2)).dedup).length + 1

/-! ## Compact range rendering (`RangeVec`) -/

inductive RangeVecEntry where
  | RangeEntry (lo hi : Nat)
  | SingleEntry (n : Nat)
  deriving DecidableEq, Repr

/-- The loop of `impl From<&Vec<usize>> for RangeVec`, carrying the
current run `[start, e]` and the output built so far. -/
def rangeVecLoop : List Nat → Nat → Nat → List RangeVecEntry → List RangeVecEntry
  | [], start, e, out =>
    out ++ [if start = e then .SingleEntry e else .RangeEntry start e]
  | i :: rest, start, e, out =>
    if i ≠ e + 1 then
      rangeVecLoop rest i i
        (out ++ [if start = e then .SingleEntry e else .RangeEntry start e])
    else
      rangeVecLoop rest start i out

/-- `RangeVec::from(&Vec<usize>)`: `input[0]` panics on an empty vector
(modelled as `none`); otherwise run the grouping loop. -/
def rangeVecFrom (input : List Nat) : Option (List RangeVecEntry) :=
  match input with
  | [] => none
  | x :: rest => some (rangeVecLoop rest x x [])

/-- The list of indices an entry denotes: `lo..=hi` or a single value. -/
def expandEntry : RangeVecEntry → List Nat
  | .RangeEntry lo hi => List.range' lo (hi + 1 - lo)
  | .SingleEntry n => [n]

def entryFirst : RangeVecEntry → Nat
  | .RangeEntry lo _ => lo
  | .SingleEntry n => n

def entryLast : RangeVecEntry → Nat
  | .RangeEntry _ hi => hi
  | .SingleEntry n => n

/-! ## Spec-side definitions (for comparison with the source) -/

/-- Modelled from the spec: the on-disk byte footprint of a payload
sequence under well-formed section framing — 8 bytes for the
magic/version pseudo-section, `varint_length(content_size) + 1` header
bytes plus `content_size` content bytes per section, 0 for code-section
entries (their bytes lie inside the `CodeSectionStart` range) and for
the end marker. -/
def payloadFootprint : Payload → Nat
  | .version _ => 8
  | .codeSectionStart _ r => leb128Len (r.stop - r.start) + 1 + (r.stop - r.start)
  | .codeSectionEntry _ => 0
  | .importSection _ _ r => leb128Len (r.stop - r.start) + 1 + (r.stop - r.start)
  | .exportSection _ _ r => leb128Len (r.stop - r.start) + 1 + (r.stop - r.start)
  | .elementSection _ _ r => leb128Len (r.stop - r.start) + 1 + (r.stop - r.start)
  | .genericSection _ _ r => leb128Len (r.stop - r.start) + 1 + (r.stop - r.start)
  | .endMarker => 0

/-- Modelled from the spec: total on-disk size of a well-formed framed
byte stream with no trailing garbage. -/
def framedSize (ps : List Payload) : Nat :=
  (ps.map payloadFootprint).sum

/-- Whether a payload carries a section content size of at least
`2^28` (the values whose LEB128 encoding does not fit the 4-byte buffer
used by `track_size`). -/
def payloadContentSize : Payload → Nat
  | .version _ => 0
  | .codeSectionStart _ r => r.stop - r.start
  | .codeSectionEntry _ => 0
  | .importSection _ _ r => r.stop - r.start
  | .exportSection _ _ r => r.stop - r.start
  | .elementSection _ _ r => r.stop - r.start
  | .genericSection _ _ r => r.stop - r.start
  | .endMarker => 0

def isVersionPayload : Payload → Bool
  | .version _ => true
  | _ => false

inductive FuncKind where
  | imported
  | implemented
  deriving DecidableEq, Repr

/-- The function index space as `analyze` assigns it: the same single
counter threaded through `add_imports` (one increment per function-kind
import) and `add_function` (one increment per code-section entry), in
file order, with the kind of each assignment recorded.  Gated on
`include_functions` exactly as the source is. -/
def indexAssignmentStep (include_functions : Bool)
    (st : List (FuncKind × Nat) × Nat) (p : Payload) : List (FuncKind × Nat) × Nat :=
  match p with
  | .importSection imports _ _ =>
    if include_functions then
      imports.foldl (fun st imp =>
        if imp.isFunc then (st.1 ++ [(FuncKind.imported, st.2)], st.2 + 1) else st) st
    else st
  | .codeSectionEntry _ =>
    if include_functions then (st.1 ++ [(FuncKind.implemented, st.2)], st.2 + 1) else st
  | _ => st

def indexAssignment (include_functions : Bool) (ps : List Payload) :
    List (FuncKind × Nat) :=
  (ps.foldl (indexAssignmentStep include_functions) ([], 0)).1

/-- The indices of the implemented functions in the unified index
space. -/
def implementedIndices (ps : List Payload) : List Nat :=
  (indexAssignment true ps).filterMap
    (fun ki => if ki.1 = FuncKind.implemented then some ki.2 else none)

/-- Modelled from the spec: a function index is uncalled iff it is
implemented and appears in none of the call graph's callee sets, the
imported-function table, the exported-function table and the
dynamic-dispatch set. -/
def uncalledFunctionsSpec (a : Analysis) (implemented : List Nat) : List Nat :=
  implemented.filter (fun e =>
    ¬ e ∈ calledFunctions a ∧
    ¬ (a.imported_functions.any (fun kv => kv.1 = e)) ∧
    ¬ (a.exported_functions.any (fun kv => kv.1 = e)) ∧
    ¬ e ∈ a.dynamic_dispatch_functions)

/-- Items of a qualifying segment (function-reference type with a
function-index list), else keep the accumulator. -/
def segItems (acc : Option (List Nat)) (e : ElementSegment) : Option (List Nat) :=
  if e.isFuncRef then
    match e.functionItems with
    | some fns => some fns
    | none => acc
  else acc

def segItemsPayload (acc : Option (List Nat)) (p : Payload) : Option (List Nat) :=
  match p with
  | .elementSection elements _ _ => elements.foldl segItems acc
  | _ => acc

/-- The function-index items of the last element segment whose type is a
function reference and whose items are a function-index list, across the
whole payload sequence (used to characterise the overwrite semantics of
`add_elements`). -/
def lastFuncSegmentItems (ps : List Payload) : Option (List Nat) :=
  ps.foldl segItemsPayload none

/-! ## Concrete modules used in the concrete theorems below -/

/-- One imported function (index 0) and one implemented function
(index 1) whose body is empty: function 1 is implemented, never called,
not imported, not exported, not dynamically dispatched. -/
def moduleImportPlusImpl : Module :=
  { source := "a.wasm", version := 1, file_size := 0,
    sections := [.importSection [{ isFunc := true, name := "host" }] 1 { start := 10, stop := 12 },
                 .codeSectionEntry []] }

/-- A single implemented function (index 0) whose body performs exactly
one direct call, to index 5. -/
def moduleOneCall : Module :=
  { source := "b.wasm", version := 1, file_size := 0,
    sections := [.codeSectionEntry [.call 5]] }

/-- A well-framed module whose one custom section has content size
`2^28`, the smallest size whose LEB128 encoding needs 5 bytes:
`file_size = 8 + (5 + 1) + 2^28`. -/
def moduleHugeSection : Module :=
  { source := "c.wasm", version := 1, file_size := 14 + 2 ^ 28,
    sections := [.version 1,
                 .genericSection "CustomSection" none { start := 14, stop := 14 + 2 ^ 28 }] }

/-- An element section with two function-reference segments listing
function indices `[1]` and `[2]` respectively. -/
def moduleTwoSegments : Module :=
  { source := "d.wasm", version := 1, file_size := 0,
    sections := [.elementSection
                  [{ isFuncRef := true, functionItems := some [1] },
                   { isFuncRef := true, functionItems := some [2] }] 2 { start := 10, stop := 20 }] }

/-- One body whose operators are first a `Nop`, then an `I32Add`: the
two mnemonics are first seen in that order and each occurs once. -/
def moduleTieOrder : Module :=
  { source := "e.wasm", version := 1, file_size := 0,
    sections := [.codeSectionEntry [.other "Nop", .other "I32Add"]] }

/-- A small well-framed module: magic/version (8 bytes) plus one type
section of content size 4 (header `1 + 1` bytes), total 14 bytes. -/
def moduleSmall : Module :=
  { source := "f.wasm", version := 1, file_size := 14,
    sections := [.version 1,
                 .genericSection "TypeSection" (some 1) { start := 10, stop := 14 }] }

/-- The two-node cyclic call graph A→B→A of the spec's example. -/
def cyclicGraph : List (Nat × List Nat) := [(0, [1]), (1, [0])]

/-! ## Theorems -/

/-- C1: the claim fails on the code.  On a module with one imported
function (index 0) and one implemented function (index 1, uncalled,
unexported, undispatched), the spec's characterisation makes exactly
index 1 uncalled, but the `Display` computation draws its candidates
from `0..implemented_function_count = [0]` — index 0 is then removed as
imported and the implemented function 1 is never considered, so the code
reports no uncalled function at all. -/
theorem uncalled_universe_bug :
    (analyze moduleImportPlusImpl false true false false).map uncalledFunctions = some [] ∧
    (analyze moduleImportPlusImpl false true false false).map
      (fun a => uncalledFunctionsSpec a (implementedIndices moduleImportPlusImpl.sections)) =
      some [1] := by
  exact ⟨rfl, rfl⟩

/-- C2: the claim fails on the code.  For a caller (index 0) whose body
performs exactly one direct call to index 5, `add_function_call`'s
vacant-entry branch (`or_insert(vec!())`) inserts an empty callee list,
so the call graph maps caller 0 to `[]`, which does not contain 5. -/
theorem first_call_edge_dropped :
    (analyze moduleOneCall false true false false).map
      (fun a => a.static_function_calls) = some [(0, [])] ∧
    (analyze moduleOneCall false true false false).map
      (fun a => ((assocLookup a.static_function_calls 0).getD []).contains 5) =
      some false := by
  exact ⟨rfl, rfl⟩

/-- C3 counterexample: a well-framed module (its `file_size` is exactly
the framed size of its payloads, with no trailing garbage) whose one
section has content size `2^28` makes `track_size` fail — the LEB128
encoding of the size needs 5 bytes but the buffer holds 4 — so
`analyze` with `include_sections` produces nothing at all, rather than a
`sections_size_total` equal to `file_size`. -/
theorem sections_size_leb128_overflow_cex :
    moduleHugeSection.file_size = framedSize moduleHugeSection.sections ∧
    (analyze moduleHugeSection true true true true).isNone = true := by
  exact ⟨by decide, by decide⟩

/-- C4 counterexample: with two function-reference segments listing
`[1]` and `[2]`, `add_elements` overwrites the dynamic-dispatch set on
each qualifying segment, leaving `[2]` — not the union `[1, 2]` over all
segments that the claim states. -/
theorem dynamic_dispatch_overwrite_cex :
    (analyze moduleTwoSegments false false false false).map
      (fun a => a.dynamic_dispatch_functions) = some [2] ∧
    ([2] : List Nat) ≠ [1, 2] := by
  exact ⟨rfl, by decide⟩

/-- C5 counterexample: the mnemonics `Nop` and `I32Add` are first seen
in that order and both occur once, but the histogram is a `BTreeMap`
iterated in key order, so the stable descending sort leaves the tie in
alphabetical order `I32Add, Nop` — not the first-seen insertion order
`Nop, I32Add` that the claim states. -/
theorem sorted_operator_usage_tie_order_cex :
    (analyze moduleTieOrder false true true false).map
      (fun a => a.sorted_operator_usage) = some [("I32Add", 1), ("Nop", 1)] ∧
    [("I32Add", 1), ("Nop", 1)] ≠ [("Nop", 1), ("I32Add", 1)] := by
  exact ⟨by decide, by decide⟩

/-! ### Generic fold lemmas and frame lemmas for the step functions -/

theorem foldl_inv {σ α : Type} {P : σ → Prop} {f : σ → α → σ}
    (h : ∀ s x, P s → P (f s x)) :
    ∀ (l : List α) (s : σ), P s → P (l.foldl f s) := by
  intro l
  induction l with
  | nil => intro s hs; simpa using hs
  | cons x xs ih => intro s hs; exact ih _ (h s x hs)

theorem foldlM_option_inv {σ α : Type} {P : σ → Prop} {f : σ → α → Option σ}
    (h : ∀ s x r, P s → f s x = some r → P r) :
    ∀ (l : List α) (s r : σ), P s → l.foldlM f s = some r → P r := by
  intro l
  induction l with
  | nil =>
    intro s r hs hr
    simp only [List.foldlM_nil, pure, Option.some.injEq] at hr
    exact hr ▸ hs
  | cons x xs ih =>
    intro s r hs hr
    simp only [List.foldlM_cons] at hr
    cases hx : f s x with
    | none => rw [hx] at hr; exact absurd hr (by simp [Bind.bind])
    | some s' =>
      rw [hx] at hr
      simp only [Bind.bind, Option.bind_some] at hr
      exact ih s' r (h s x s' hs hx) hr

theorem add_function_op_eq (i : Nat) (a : Analysis) (op : Operator) :
    ∃ c u n, add_function_op i a op =
      { a with static_function_calls := c, operator_usage := u, operator_count := n } := by
  unfold add_function_op
  cases op <;> dsimp only <;> split <;> exact ⟨_, _, _, rfl⟩

theorem add_function_eq (a : Analysis) (body : List Operator) (i : Nat) :
    ∃ c u n m j, add_function a body i =
      ({ a with static_function_calls := c, operator_usage := u, operator_count := n,
                implemented_function_count := m }, j) := by
  unfold add_function
  split
  · exact ⟨a.static_function_calls, a.operator_usage, a.operator_count,
      a.implemented_function_count, i, rfl⟩
  · have : ∃ c u n, body.foldl (add_function_op i) a =
        { a with static_function_calls := c, operator_usage := u, operator_count := n } := by
      refine foldl_inv (P := fun x => ∃ c u n, x =
        { a with static_function_calls := c, operator_usage := u, operator_count := n })
        ?_ body a ⟨a.static_function_calls, a.operator_usage, a.operator_count, rfl⟩
      rintro s op ⟨c, u, n, rfl⟩
      obtain ⟨c', u', n', h⟩ := add_function_op_eq i _ op
      exact ⟨c', u', n', h⟩
    obtain ⟨c, u, n, h⟩ := this
    rw [h]
    exact ⟨c, u, n, _, _, rfl⟩

theorem add_imports_fold_eq (imports : List ImportEntry) (st : Analysis × Nat) :
    ∃ im j, imports.foldl add_imports_entry st = ({ st.1 with imported_functions := im }, j) := by
  refine foldl_inv (P := fun x => ∃ im j, x = ({ st.1 with imported_functions := im }, j))
    ?_ imports st ⟨st.1.imported_functions, st.2, rfl⟩
  rintro s imp ⟨im, j, rfl⟩
  unfold add_imports_entry
  split <;> exact ⟨_, _, rfl⟩

theorem add_exports_fold_eq (exports : List ExportEntry) (a : Analysis) :
    ∃ ex, exports.foldl add_exports_entry a = { a with exported_functions := ex } := by
  refine foldl_inv (P := fun x => ∃ ex, x = { a with exported_functions := ex })
    ?_ exports a ⟨a.exported_functions, rfl⟩
  rintro s e ⟨ex, rfl⟩
  unfold add_exports_entry
  split <;> exact ⟨_, rfl⟩

theorem add_elements_fold_eq (elements : List ElementSegment) (a : Analysis) :
    ∃ d, elements.foldl add_elements_entry a = { a with dynamic_dispatch_functions := d } := by
  refine foldl_inv (P := fun x => ∃ d, x = { a with dynamic_dispatch_functions := d })
    ?_ elements a ⟨a.dynamic_dispatch_functions, rfl⟩
  rintro s e ⟨d, rfl⟩
  unfold add_elements_entry
  split
  · split <;> exact ⟨_, rfl⟩
  · exact ⟨d, rfl⟩

theorem track_size_eq (a : Analysis) (ty : String) (r : ByteRange) (a' : Analysis) (h : Nat)
    (heq : track_size a ty r = some (a', h)) :
    ∃ t, a' = { a with sections_size_total := t } := by
  simp only [track_size] at heq
  split at heq
  · simp only [Option.map_some', Option.some.injEq, Prod.mk.injEq] at heq
    exact ⟨_, heq.1.symm⟩
  · split at heq
    · simp only [Option.map_some', Option.some.injEq, Prod.mk.injEq] at heq
      exact ⟨_, heq.1.symm⟩
    · simp at heq

theorem add_section_eq (a : Analysis) (ty : String) (c : Option Nat) (r : ByteRange)
    (a' : Analysis) (heq : add_section a ty c r = some a') :
    ∃ s t, a' = { a with sections := s, sections_size_total := t } := by
  unfold add_section at heq
  split at heq
  · cases ht : track_size a ty r with
    | none => rw [ht] at heq; simp at heq
    | some ah =>
      rw [ht] at heq
      simp only [Option.map_some', Option.some.injEq] at heq
      obtain ⟨t, hh⟩ := track_size_eq a ty r ah.1 ah.2 ht
      subst heq
      rw [hh]
      exact ⟨_, _, rfl⟩
  · simp only [Option.some.injEq] at heq
    exact ⟨a.sections, a.sections_size_total, heq.symm⟩

theorem leb128LenGo_le (fuel : Nat) :
    ∀ k n : Nat, n ≤ fuel → n < 128 ^ (k + 1) → leb128LenGo fuel n ≤ k + 1 := by
  induction fuel with
  | zero =>
    intro k n hn _
    have : n = 0 := Nat.le_zero.mp hn
    subst this
    simp [leb128LenGo]
  | succ fuel ih =>
    intro k n hn hlt
    cases n with
    | zero => simp [leb128LenGo]
    | succ m =>
      simp only [leb128LenGo]
      split
      · omega
      · rename_i h128
        cases k with
        | zero => simp at hlt; omega
        | succ k' =>
          have hdivle : (m + 1) / 128 ≤ fuel := by
            have := Nat.div_lt_self (Nat.succ_pos m) (by norm_num : 1 < 128)
            omega
          have hdivlt : (m + 1) / 128 < 128 ^ (k' + 1) := by
            apply Nat.div_lt_of_lt_mul
            calc m + 1 < 128 ^ (k' + 2) := hlt
              _ = 128 * 128 ^ (k' + 1) := by ring
          have := ih k' ((m + 1) / 128) hdivle hdivlt
          omega

theorem leb128Len_le_four {n : Nat} (h : n < 2 ^ 28) : leb128Len n ≤ 4 := by
  have h4 : n < 128 ^ 4 := by norm_num at h ⊢; omega
  exact leb128LenGo_le n 3 n le_rfl h4

/-- `track_size` on a non-`Magic` label whose size fits the 4-byte
LEB128 buffer: exact result. -/
theorem track_size_total (a : Analysis) (ty : String) (r : ByteRange)
    (hm : startsWithMagic ty = false) (hle : leb128Len (r.stop - r.start) ≤ 4) :
    track_size a ty r = some
      ({ a with sections_size_total :=
          a.sections_size_total + (r.stop - r.start) + (leb128Len (r.stop - r.start) + 1) },
       leb128Len (r.stop - r.start) + 1) := by
  simp [track_size, hm, hle]

/-- `add_section` with `include_sections` on, a non-`Magic` label, and
an encodable size: succeeds and adds `content + header` bytes. -/
theorem add_section_total (a : Analysis) (ty : String) (c : Option Nat) (r : ByteRange)
    (hinc : a.include_sections = true) (hm : startsWithMagic ty = false)
    (hsz : r.stop - r.start < 2 ^ 28) :
    ∃ a', add_section a ty c r = some a' ∧
      a'.sections_size_total =
        a.sections_size_total + (r.stop - r.start) + (leb128Len (r.stop - r.start) + 1) ∧
      a'.include_sections = true := by
  have ht := track_size_total a ty r hm (leb128Len_le_four hsz)
  unfold add_section
  rw [if_pos hinc, ht]
  simp only [Option.map_some']
  exact ⟨_, rfl, by simp, by simpa using hinc⟩

/-- With `include_sections` enabled, every step succeeds on a stream of
encodable, non-`Magic`, non-`End` payloads and the running total grows
by exactly the payload's framed footprint. -/
theorem analyzeCore_total (ps : List Payload) :
    ∀ st : Analysis × Nat, st.1.include_sections = true →
    (∀ p ∈ ps, payloadContentSize p < 2 ^ 28) →
    (∀ ty c r, Payload.genericSection ty c r ∈ ps → startsWithMagic ty = false) →
    Payload.endMarker ∉ ps →
    ∃ r, List.foldlM analyzeStep st ps = some r ∧
      r.1.sections_size_total = st.1.sections_size_total + framedSize ps ∧
      r.1.include_sections = true := by
  induction ps with
  | nil =>
    intro st h _ _ _
    exact ⟨st, by simp [List.foldlM_nil, pure], by simp [framedSize], h⟩
  | cons p ps ih =>
    intro st hinc hsz hmagic hend
    have hsz' := fun q hq => hsz q (List.mem_cons_of_mem _ hq)
    have hmagic' := fun ty c r h => hmagic ty c r (List.mem_cons_of_mem _ h)
    have hend' : Payload.endMarker ∉ ps := fun h => hend (List.mem_cons_of_mem _ h)
    have hstep : ∃ st', analyzeStep st p = some st' ∧
        st'.1.sections_size_total = st.1.sections_size_total + payloadFootprint p ∧
        st'.1.include_sections = true := by
      cases p with
      | version n => exact ⟨_, rfl, by simp [payloadFootprint], by simpa using hinc⟩
      | codeSectionStart c r =>
        have hs : r.stop - r.start < 2 ^ 28 := by
          simpa [payloadContentSize] using hsz _ (List.mem_cons_self _ _)
        obtain ⟨a', heq, htot, hincs⟩ :=
          add_section_total st.1 "CodeSectionStart" (some c) r hinc (by decide) hs
        refine ⟨(a', st.2), by simp [analyzeStep, heq], ?_, hincs⟩
        simp only [payloadFootprint]
        omega
      | codeSectionEntry body =>
        obtain ⟨c, u, n, mm, j, heq⟩ := add_function_eq st.1 body st.2
        refine ⟨add_function st.1 body st.2, rfl, ?_, ?_⟩
        · rw [heq]; simp [payloadFootprint]
        · rw [heq]; simpa using hinc
      | importSection imports c r =>
        have hs : r.stop - r.start < 2 ^ 28 := by
          simpa [payloadContentSize] using hsz _ (List.mem_cons_self _ _)
        obtain ⟨a', heq, htot, hincs⟩ :=
          add_section_total st.1 "ImportSection" (some c) r hinc (by decide) hs
        obtain ⟨im, j, hfold⟩ := add_imports_fold_eq imports (a', st.2)
        by_cases hf : a'.include_functions = true
        · refine ⟨({ a' with imported_functions := im }, j), ?_, ?_, by simpa using hincs⟩
          · simp [analyzeStep, add_imports, heq, hf, hfold]
          · simp only [payloadFootprint]
            show a'.sections_size_total =
              st.1.sections_size_total + (leb128Len (r.stop - r.start) + 1 + (r.stop - r.start))
            omega
        · refine ⟨(a', st.2), ?_, ?_, hincs⟩
          · simp [analyzeStep, add_imports, heq, hf]
          · simp only [payloadFootprint]
            omega
      | exportSection exports c r =>
        have hs : r.stop - r.start < 2 ^ 28 := by
          simpa [payloadContentSize] using hsz _ (List.mem_cons_self _ _)
        obtain ⟨a', heq, htot, hincs⟩ :=
          add_section_total st.1 "ExportSection" (some c) r hinc (by decide) hs
        obtain ⟨ex, hfold⟩ := add_exports_fold_eq exports a'
        by_cases hf : a'.include_functions = true
        · refine ⟨({ a' with exported_functions := ex }, st.2), ?_, ?_, by simpa using hincs⟩
          · simp [analyzeStep, add_exports, heq, hf, hfold]
          · simp only [payloadFootprint]
            show a'.sections_size_total =
              st.1.sections_size_total + (leb128Len (r.stop - r.start) + 1 + (r.stop - r.start))
            omega
        · refine ⟨(a', st.2), ?_, ?_, hincs⟩
          · simp [analyzeStep, add_exports, heq, hf]
          · simp only [payloadFootprint]
            omega
      | elementSection elements c r =>
        have hs : r.stop - r.start < 2 ^ 28 := by
          simpa [payloadContentSize] using hsz _ (List.mem_cons_self _ _)
        obtain ⟨a', heq, htot, hincs⟩ :=
          add_section_total st.1 "ElementSection" (some c) r hinc (by decide) hs
        obtain ⟨d, hfold⟩ := add_elements_fold_eq elements a'
        refine ⟨({ a' with dynamic_dispatch_functions := d }, st.2), ?_, ?_,
          by simpa using hincs⟩
        · simp [analyzeStep, add_elements, heq, hfold]
        · simp only [payloadFootprint]
          show a'.sections_size_total =
            st.1.sections_size_total + (leb128Len (r.stop - r.start) + 1 + (r.stop - r.start))
          omega
      | genericSection ty c r =>
        have hs : r.stop - r.start < 2 ^ 28 := by
          simpa [payloadContentSize] using hsz _ (List.mem_cons_self _ _)
        obtain ⟨a', heq, htot, hincs⟩ :=
          add_section_total st.1 ty c r hinc (hmagic ty c r (List.mem_cons_self _ _)) hs
        refine ⟨(a', st.2), by simp [analyzeStep, heq], ?_, hincs⟩
        simp only [payloadFootprint]
        omega
      | endMarker => exact absurd (List.mem_cons_self _ _) hend
    obtain ⟨st', hstepEq, htot, hinc'⟩ := hstep
    obtain ⟨r, hfold, htot', hinc''⟩ := ih st' hinc' hsz' hmagic' hend'
    refine ⟨r, ?_, ?_, hinc''⟩
    · simp only [List.foldlM_cons, hstepEq, Bind.bind, Option.bind_some]
      exact hfold
    · rw [htot', htot]
      simp only [framedSize, List.map_cons, List.sum_cons]
      omega

/-- With `include_sections` disabled, every step succeeds (except on the
`End` marker), the section list is never touched, and the running total
grows by 8 exactly on `Version` payloads. -/
theorem analyzeCore_noSections (ps : List Payload) :
    ∀ st : Analysis × Nat, st.1.include_sections = false → Payload.endMarker ∉ ps →
    ∃ r, List.foldlM analyzeStep st ps = some r ∧
      r.1.sections = st.1.sections ∧
      r.1.sections_size_total = st.1.sections_size_total + 8 * ps.countP isVersionPayload ∧
      r.1.include_sections = false := by
  induction ps with
  | nil =>
    intro st h _
    exact ⟨st, by simp [List.foldlM_nil, pure], rfl, by simp, h⟩
  | cons p ps ih =>
    intro st hinc hend
    have hend' : Payload.endMarker ∉ ps := fun h => hend (List.mem_cons_of_mem _ h)
    have hstep : ∃ st', analyzeStep st p = some st' ∧
        st'.1.sections = st.1.sections ∧
        st'.1.sections_size_total =
          st.1.sections_size_total + (if isVersionPayload p then 8 else 0) ∧
        st'.1.include_sections = false := by
      cases p with
      | version n =>
        exact ⟨_, rfl, rfl, by simp [isVersionPayload], by simpa using hinc⟩
      | codeSectionStart c r =>
        refine ⟨(st.1, st.2), ?_, rfl, by simp [isVersionPayload], hinc⟩
        simp [analyzeStep, add_section, hinc]
      | codeSectionEntry body =>
        obtain ⟨c, u, n, mm, j, heq⟩ := add_function_eq st.1 body st.2
        refine ⟨_, rfl, ?_, ?_, ?_⟩ <;> simp [analyzeStep, heq, isVersionPayload, hinc]
      | importSection imports c r =>
        obtain ⟨im, j, hfold⟩ := add_imports_fold_eq imports (st.1, st.2)
        by_cases hf : st.1.include_functions = true
        · refine ⟨({ st.1 with imported_functions := im }, j), ?_,
            by simp, by simp [isVersionPayload], by simpa using hinc⟩
          simp [analyzeStep, add_imports, add_section, hinc, hf, hfold]
        · refine ⟨(st.1, st.2), ?_, rfl, by simp [isVersionPayload], hinc⟩
          simp [analyzeStep, add_imports, add_section, hinc, hf]
      | exportSection exports c r =>
        obtain ⟨ex, hfold⟩ := add_exports_fold_eq exports st.1
        by_cases hf : st.1.include_functions = true
        · refine ⟨({ st.1 with exported_functions := ex }, st.2), ?_,
            by simp, by simp [isVersionPayload], by simpa using hinc⟩
          simp [analyzeStep, add_exports, add_section, hinc, hf, hfold]
        · refine ⟨(st.1, st.2), ?_, rfl, by simp [isVersionPayload], hinc⟩
          simp [analyzeStep, add_exports, add_section, hinc, hf]
      | elementSection elements c r =>
        obtain ⟨d, hfold⟩ := add_elements_fold_eq elements st.1
        refine ⟨({ st.1 with dynamic_dispatch_functions := d }, st.2), ?_,
          by simp, by simp [isVersionPayload], by simpa using hinc⟩
        simp [analyzeStep, add_elements, add_section, hinc, hfold]
      | genericSection ty c r =>
        refine ⟨(st.1, st.2), ?_, rfl, by simp [isVersionPayload], hinc⟩
        simp [analyzeStep, add_section, hinc]
      | endMarker => exact absurd (List.mem_cons_self _ _) hend
    obtain ⟨st', hstepEq, hsec, htot, hinc'⟩ := hstep
    obtain ⟨r, hfold, hsec', htot', hinc''⟩ := ih st' hinc' hend'
    refine ⟨r, ?_, by rw [hsec', hsec], ?_, hinc''⟩
    · simp only [List.foldlM_cons, hstepEq, Bind.bind, Option.bind_some]
      exact hfold
    · rw [htot', htot, List.countP_cons]
      cases hv : isVersionPayload p
      · simp [hv]
      · simp only [hv, if_true, if_pos]
        ring

/-- C10: with `include_sections` disabled, `add_section` is a no-op (no
section records, no byte accounting), yet the `Version` arm of `analyze`
adds the magic/version payload's 8 bytes to `sections_size_total`
unconditionally, so the total ends at exactly 8 for any successfully
parsed module (one `Version` payload, no `End` payload). -/
theorem analyze_without_sections_frame (m : Module) (f o t : Bool)
    (hend : Payload.endMarker ∉ m.sections)
    (hv : m.sections.countP isVersionPayload = 1) :
    ∃ a, analyze m false f o t = some a ∧ a.sections = [] ∧ a.sections_size_total = 8 := by
  obtain ⟨r, hfold, hsec, htot, _⟩ :=
    analyzeCore_noSections m.sections
      ({ include_sections := false, include_functions := f, include_operators := o,
         include_function_call_tree := t }, 0) rfl hend
  refine ⟨post_process r.1, ?_, ?_, ?_⟩
  · simp [analyze, analyzeCore, hfold]
  · simpa [post_process] using hsec
  · simp [post_process, htot, hv]

/-- Witness for C10 at a concrete module. -/
theorem analyze_without_sections_frame_witness :
    (Payload.endMarker ∉ moduleSmall.sections) ∧
    moduleSmall.sections.countP isVersionPayload = 1 ∧
    ∃ a, analyze moduleSmall false true true true = some a ∧
      a.sections = [] ∧ a.sections_size_total = 8 :=
  ⟨by decide, by decide,
    analyze_without_sections_frame moduleSmall true true true (by decide) (by decide)⟩

/-- C3 (amended): for a module whose byte stream is entirely
well-formed section framing with no trailing garbage (`file_size`
equals the framed size of the payloads), whose section labels are the
engine's own non-`Magic` labels, and whose content sizes are all below
`2^28` (larger sizes overflow the 4-byte LEB128 buffer and abort the
analysis, see the counterexample), `analyze` with `include_sections`
produces `sections_size_total` equal to `file_size`: each section
contributes `varint_length(content_size) + 1` header bytes plus
`content_size` bytes, and the magic/version pseudo-section contributes
its 8 bytes with header size zero. -/
theorem sections_size_total_eq_file_size (m : Module) (f o t : Bool)
    (hframe : m.file_size = framedSize m.sections)
    (hsz : ∀ p ∈ m.sections, payloadContentSize p < 2 ^ 28)
    (hmagic : ∀ ty c r, Payload.genericSection ty c r ∈ m.sections →
      startsWithMagic ty = false)
    (hend : Payload.endMarker ∉ m.sections) :
    ∃ a, analyze m true f o t = some a ∧ a.sections_size_total = m.file_size := by
  obtain ⟨r, hfold, htot, _⟩ :=
    analyzeCore_total m.sections
      ({ include_sections := true, include_functions := f, include_operators := o,
         include_function_call_tree := t }, 0) rfl hsz hmagic hend
  refine ⟨post_process r.1, ?_, ?_⟩
  · simp [analyze, analyzeCore, hfold]
  · simp [post_process, htot, hframe]

/-- Witness for C3 at a concrete well-framed module. -/
theorem sections_size_total_eq_file_size_witness :
    moduleSmall.file_size = framedSize moduleSmall.sections ∧
    (∀ p ∈ moduleSmall.sections, payloadContentSize p < 2 ^ 28) ∧
    ∃ a, analyze moduleSmall true false false false = some a ∧
      a.sections_size_total = moduleSmall.file_size :=
  ⟨by decide, by decide,
    sections_size_total_eq_file_size moduleSmall false false false (by decide) (by decide)
      (by
        intro ty c r h
        simp only [moduleSmall, List.mem_cons, List.mem_singleton] at h
        rcases h with h | h | h
        · exact absurd h (by simp)
        · rw [show ty = "TypeSection" from by injection h] 
          decide
        · exact absurd h (by simp))
      (by decide)⟩

/-! ### Dynamic-dispatch overwrite semantics (C4) -/

/-- "Last write wins" accumulators: folding from any start value equals
folding from `none` unless no write happened. -/
theorem foldl_overwrite {α τ : Type} (f : Option τ → α → Option τ)
    (hf : ∀ acc x, f acc x = (f none x).or acc) :
    ∀ (l : List α) (acc : Option τ), l.foldl f acc = (l.foldl f none).or acc := by
  intro l
  induction l with
  | nil => intro acc; simp [Option.or]
  | cons x xs ih =>
    intro acc
    simp only [List.foldl_cons]
    rw [ih (f acc x), ih (f none x), hf acc x]
    cases xs.foldl f none <;> cases f none x <;> simp [Option.or]

theorem segItems_overwrite (acc : Option (List Nat)) (e : ElementSegment) :
    segItems acc e = (segItems none e).or acc := by
  unfold segItems
  split
  · split <;> simp [Option.or]
  · simp [Option.or]

theorem segItemsPayload_overwrite (acc : Option (List Nat)) (p : Payload) :
    segItemsPayload acc p = (segItemsPayload none p).or acc := by
  cases p <;> simp only [segItemsPayload]
  case elementSection elements c r => exact foldl_overwrite segItems segItems_overwrite elements acc
  all_goals simp [Option.or]

/-- The per-section element fold tracks `segItems` exactly. -/
theorem add_elements_fold_dyn (elements : List ElementSegment) :
    ∀ a : Analysis, (elements.foldl add_elements_entry a).dynamic_dispatch_functions =
      match elements.foldl segItems none with
      | some fns => sortDedup fns
      | none => a.dynamic_dispatch_functions := by
  induction elements with
  | nil => intro a; simp
  | cons e es ih =>
    intro a
    simp only [List.foldl_cons]
    rw [ih (add_elements_entry a e),
      foldl_overwrite segItems segItems_overwrite es (segItems none e)]
    cases hx : es.foldl segItems none with
    | some v => simp [Option.or]
    | none =>
      simp only [Option.or]
      unfold add_elements_entry segItems
      split
      · split <;> simp
      · simp

/-- Through the whole payload fold, the dynamic-dispatch set is that of
the last qualifying segment (or the initial value if there is none). -/
theorem analyzeCore_dyn (ps : List Payload) :
    ∀ (st : Analysis × Nat) (r : Analysis × Nat),
      List.foldlM analyzeStep st ps = some r →
      r.1.dynamic_dispatch_functions =
        match ps.foldl segItemsPayload none with
        | some fns => sortDedup fns
        | none => st.1.dynamic_dispatch_functions := by
  induction ps with
  | nil =>
    intro st r h
    simp only [List.foldlM_nil, pure, Option.some.injEq] at h
    subst h
    simp
  | cons p ps ih =>
    intro st r h
    simp only [List.foldlM_cons] at h
    cases hx : analyzeStep st p with
    | none => rw [hx] at h; exact absurd h (by simp [Bind.bind])
    | some st' =>
      rw [hx] at h
      simp only [Bind.bind, Option.bind_some] at h
      have hrest := ih st' r h
      simp only [List.foldl_cons]
      rw [foldl_overwrite segItemsPayload segItemsPayload_overwrite ps (segItemsPayload none p),
        hrest]
      cases hps : ps.foldl segItemsPayload none with
      | some v => simp [Option.or]
      | none =>
        simp only [Option.or]
        -- remains: st'.dyn agrees with the head payload's effect
        cases p with
        | elementSection elements c rg =>
          simp only [analyzeStep, add_elements] at hx
          cases hsec : add_section st.1 "ElementSection" (some c) rg with
          | none => rw [hsec] at hx; simp at hx
          | some a' =>
            rw [hsec] at hx
            simp only [Option.map_some', Option.some.injEq] at hx
            obtain ⟨sset, tset, ha'⟩ := add_section_eq st.1 "ElementSection" (some c) rg a' hsec
            subst hx
            rw [add_elements_fold_dyn elements a']
            simp only [segItemsPayload]
            cases elements.foldl segItems none with
            | some fns => simp
            | none => simp [ha']
        | version n =>
          simp only [analyzeStep, Option.some.injEq] at hx
          subst hx
          simp [segItemsPayload]
        | codeSectionStart c rg =>
          simp only [analyzeStep] at hx
          cases hsec : add_section st.1 "CodeSectionStart" (some c) rg with
          | none => rw [hsec] at hx; simp at hx
          | some a' =>
            rw [hsec] at hx
            simp only [Option.map_some', Option.some.injEq] at hx
            obtain ⟨sset, tset, ha'⟩ := add_section_eq st.1 "CodeSectionStart" (some c) rg a' hsec
            subst hx
            simp [segItemsPayload, ha']
        | codeSectionEntry body =>
          simp only [analyzeStep, Option.some.injEq] at hx
          obtain ⟨c, u, n, mm, j, heq⟩ := add_function_eq st.1 body st.2
          subst hx
          rw [heq]
          simp [segItemsPayload]
        | importSection imports c rg =>
          simp only [analyzeStep, add_imports] at hx
          cases hsec : add_section st.1 "ImportSection" (some c) rg with
          | none => rw [hsec] at hx; simp at hx
          | some a' =>
            rw [hsec] at hx
            simp only [Option.map_some', Option.some.injEq] at hx
            obtain ⟨sset, tset, ha'⟩ := add_section_eq st.1 "ImportSection" (some c) rg a' hsec
            obtain ⟨im, j, hfold⟩ := add_imports_fold_eq imports (a', st.2)
            subst hx
            simp only [segItemsPayload]
            split
            · rw [hfold]; simp [ha']
            · simp [ha']
        | exportSection exports c rg =>
          simp only [analyzeStep, add_exports] at hx
          cases hsec : add_section st.1 "ExportSection" (some c) rg with
          | none => rw [hsec] at hx; simp at hx
          | some a' =>
            rw [hsec] at hx
            simp only [Option.map_some', Option.some.injEq] at hx
            obtain ⟨sset, tset, ha'⟩ := add_section_eq st.1 "ExportSection" (some c) rg a' hsec
            obtain ⟨ex, hfold⟩ := add_exports_fold_eq exports a'
            subst hx
            simp only [segItemsPayload]
            split
            · rw [hfold]; simp [ha']
            · simp [ha']
        | genericSection ty c rg =>
          simp only [analyzeStep] at hx
          cases hsec : add_section st.1 ty c rg with
          | none => rw [hsec] at hx; simp at hx
          | some a' =>
            rw [hsec] at hx
            simp only [Option.map_some', Option.some.injEq] at hx
            obtain ⟨sset, tset, ha'⟩ := add_section_eq st.1 ty c rg a' hsec
            subst hx
            simp [segItemsPayload, ha']
        | endMarker => simp [analyzeStep] at hx

/-! ### `sort` + `dedup` produce a strictly sorted list -/

theorem insertSortedNat_mem (x : Nat) :
    ∀ (l : List Nat) (z : Nat), z ∈ insertSortedNat x l ↔ z = x ∨ z ∈ l := by
  intro l
  induction l with
  | nil => intro z; simp [insertSortedNat]
  | cons y ys ih =>
    intro z
    unfold insertSortedNat
    split
    · simp [or_comm, or_assoc, or_left_comm]
    · simp only [List.mem_cons, ih]
      tauto

theorem insertSortedNat_sorted (x : Nat) :
    ∀ {l : List Nat}, List.Sorted (· ≤ ·) l → List.Sorted (· ≤ ·) (insertSortedNat x l) := by
  intro l
  induction l with
  | nil => intro _; simp [insertSortedNat]
  | cons y ys ih =>
    intro hs
    rw [List.sorted_cons] at hs
    unfold insertSortedNat
    split
    · rename_i hxy
      rw [List.sorted_cons]
      refine ⟨?_, List.sorted_cons.mpr hs⟩
      intro z hz
      rcases List.mem_cons.mp hz with rfl | hz
      · exact hxy
      · exact le_trans hxy (hs.1 z hz)
    · rename_i hxy
      rw [List.sorted_cons]
      refine ⟨?_, ih hs.2⟩
      intro z hz
      rcases (insertSortedNat_mem x ys z).mp hz with rfl | hz
      · omega
      · exact hs.1 z hz

theorem sortNat_sorted (l : List Nat) : List.Sorted (· ≤ ·) (sortNat l) := by
  induction l with
  | nil => simp [sortNat]
  | cons x xs ih => exact insertSortedNat_sorted x ih

theorem sortNat_mem (l : List Nat) (z : Nat) : z ∈ sortNat l ↔ z ∈ l := by
  induction l with
  | nil => simp [sortNat]
  | cons x xs ih =>
    show z ∈ insertSortedNat x (sortNat xs) ↔ _
    rw [insertSortedNat_mem, ih]
    simp

theorem dedupConsec_mem : ∀ (l : List Nat) (z : Nat), z ∈ dedupConsec l ↔ z ∈ l := by
  intro l
  induction l with
  | nil => intro z; simp [dedupConsec]
  | cons x t ih =>
    intro z
    cases t with
    | nil => simp [dedupConsec]
    | cons y rest =>
      unfold dedupConsec
      split
      · rename_i hxy
        subst hxy
        rw [ih]
        simp
      · simp only [List.mem_cons, ih]

theorem dedupConsec_sorted_lt :
    ∀ (l : List Nat), List.Sorted (· ≤ ·) l → List.Sorted (· < ·) (dedupConsec l) := by
  intro l
  induction l with
  | nil => intro _; simp [dedupConsec]
  | cons x t ih =>
    intro hs
    rw [List.sorted_cons] at hs
    cases t with
    | nil => simp [dedupConsec]
    | cons y rest =>
      unfold dedupConsec
      split
      · exact ih hs.2
      · rename_i hxy
        rw [List.sorted_cons]
        refine ⟨?_, ih hs.2⟩
        intro z hz
        have hz' : z ∈ y :: rest := (dedupConsec_mem _ z).mp hz
        have hxy' : x < y := lt_of_le_of_ne (hs.1 y (List.mem_cons_self _ _)) hxy
        rcases List.mem_cons.mp hz' with rfl | hz'
        · exact hxy'
        · have : y ≤ z := (List.sorted_cons.mp hs.2).1 z hz'
          omega

theorem sortDedup_sorted (l : List Nat) : List.Sorted (· < ·) (sortDedup l) :=
  dedupConsec_sorted_lt _ (sortNat_sorted l)

theorem sortDedup_mem (l : List Nat) (z : Nat) : z ∈ sortDedup l ↔ z ∈ l := by
  unfold sortDedup
  rw [dedupConsec_mem, sortNat_mem]

/-- C4 (amended): the dynamic-dispatch set is the sorted, deduplicated
function-index list of the *last* element segment whose reference type
is a function reference and whose items are a function-index list —
each qualifying segment overwrites the previous one, so with several
such segments only the final one contributes (see the counterexample);
with none, the set is empty. -/
theorem dynamic_dispatch_last_segment (m : Module) (s f o t : Bool)
    (h : (analyze m s f o t).isSome = true) :
    ∃ a, analyze m s f o t = some a ∧
      a.dynamic_dispatch_functions =
        ((lastFuncSegmentItems m.sections).map sortDedup).getD [] ∧
      List.Sorted (· < ·) a.dynamic_dispatch_functions ∧
      (∀ z, z ∈ a.dynamic_dispatch_functions ↔
        z ∈ (lastFuncSegmentItems m.sections).getD []) := by
  cases han : analyze m s f o t with
  | none => rw [han] at h; simp at h
  | some a =>
    refine ⟨a, rfl, ?_⟩
    unfold analyze analyzeCore at han
    cases hfold : List.foldlM analyzeStep
        ({ include_sections := s, include_functions := f, include_operators := o,
           include_function_call_tree := t }, 0) m.sections with
    | none => rw [hfold] at han; simp at han
    | some r =>
      rw [hfold] at han
      simp only [Option.map_some', Option.some.injEq] at han
      have hdyn := analyzeCore_dyn m.sections _ r hfold
      have hpost : a.dynamic_dispatch_functions = r.1.dynamic_dispatch_functions := by
        rw [← han]; simp [post_process]
      rw [hpost, hdyn]
      unfold lastFuncSegmentItems
      cases m.sections.foldl segItemsPayload none with
      | none => simp
      | some fns =>
        refine ⟨by simp, sortDedup_sorted fns, fun z => by simpa using sortDedup_mem fns z⟩

/-- Witness for C4's amended theorem at the two-segment module. -/
theorem dynamic_dispatch_last_segment_witness :
    (analyze moduleTwoSegments false false false false).isSome = true ∧
    ∃ a, analyze moduleTwoSegments false false false false = some a ∧
      a.dynamic_dispatch_functions =
        ((lastFuncSegmentItems moduleTwoSegments.sections).map sortDedup).getD [] ∧
      List.Sorted (· < ·) a.dynamic_dispatch_functions ∧
      (∀ z, z ∈ a.dynamic_dispatch_functions ↔
        z ∈ (lastFuncSegmentItems moduleTwoSegments.sections).getD []) :=
  ⟨by decide, dynamic_dispatch_last_segment moduleTwoSegments false false false false (by decide)⟩

/-! ### The histogram key order is a strict total order (C5) -/

theorem charToNat_inj {a b : Char} (h : a.toNat = b.toNat) : a = b :=
  Char.ext (UInt32.ext h)

theorem charCodes_inj {a b : String} (h : charCodes a = charCodes b) : a = b := by
  apply String.ext
  exact List.map_injective_iff.mpr (fun x y hxy => charToNat_inj hxy) h

theorem natListLt_trans :
    ∀ (a b c : List Nat), natListLt a b = true → natListLt b c = true →
      natListLt a c = true := by
  intro a
  induction a with
  | nil =>
    intro b c h1 h2
    cases b with
    | nil => simp [natListLt] at h1
    | cons y bs =>
      cases c with
      | nil => simp [natListLt] at h2
      | cons z cs => simp [natListLt]
  | cons x as ih =>
    intro b c h1 h2
    cases b with
    | nil => simp [natListLt] at h1
    | cons y bs =>
      cases c with
      | nil => simp [natListLt] at h2
      | cons z cs =>
        simp only [natListLt] at h1 h2 ⊢
        by_cases hxy : x < y
        · have hyz : y ≤ z := by
            by_cases h : y < z
            · omega
            · by_cases h' : z < y
              · simp [h, h'] at h2
              · omega
          have hxz : x < z := by omega
          simp [hxz]
        · by_cases hyx : y < x
          · simp [hxy, hyx] at h1
          · have hxy' : x = y := by omega
            subst hxy'
            rw [if_neg (Nat.lt_irrefl x), if_neg (Nat.lt_irrefl x)] at h1
            by_cases hxz : x < z
            · simp [hxz]
            · by_cases hzx : z < x
              · simp [hxz, hzx] at h2
              · rw [if_neg hxz, if_neg hzx] at h2 ⊢
                exact ih bs cs h1 h2

theorem natListLt_total :
    ∀ (a b : List Nat), natListLt a b = false → natListLt b a = false → a = b := by
  intro a
  induction a with
  | nil =>
    intro b h1 _
    cases b with
    | nil => rfl
    | cons y bs => simp [natListLt] at h1
  | cons x as ih =>
    intro b h1 h2
    cases b with
    | nil => simp [natListLt] at h2
    | cons y bs =>
      simp only [natListLt] at h1 h2
      rcases Nat.lt_trichotomy x y with hxy | hxy | hxy
      · simp [hxy] at h1
      · subst hxy
        rw [if_neg (Nat.lt_irrefl x), if_neg (Nat.lt_irrefl x)] at h1
        rw [if_neg (Nat.lt_irrefl x), if_neg (Nat.lt_irrefl x)] at h2
        rw [ih bs h1 h2]
      · simp [hxy] at h2

theorem strLt_trans {a b c : String} (h1 : strLt a b = true) (h2 : strLt b c = true) :
    strLt a c = true :=
  natListLt_trans _ _ _ h1 h2

theorem strLt_total {a b : String} (h1 : strLt a b = false) (h2 : strLt b a = false) :
    a = b :=
  charCodes_inj (natListLt_total _ _ h1 h2)

theorem btreeTally_mem (k : String) :
    ∀ (l : List (String × Nat)) (x : String × Nat),
      x ∈ btreeTally k l → x.1 = k ∨ x ∈ l := by
  intro l
  induction l with
  | nil =>
    intro x hx
    simp only [btreeTally, List.mem_singleton] at hx
    left
    rw [hx]
  | cons kv rest ih =>
    obtain ⟨k', c⟩ := kv
    intro x hx
    simp only [btreeTally] at hx
    split at hx
    · rcases List.mem_cons.mp hx with rfl | hx
      · left; rfl
      · right; exact hx
    · split at hx
      · rcases List.mem_cons.mp hx with rfl | hx
        · rename_i heq
          left
          rw [← heq]
        · right; exact List.mem_cons_of_mem _ hx
      · rcases List.mem_cons.mp hx with rfl | hx
        · right; exact List.mem_cons_self _ _
        · rcases ih x hx with h | h
          · left; exact h
          · right; exact List.mem_cons_of_mem _ h

/-- `btreeTally` keeps the association list strictly sorted by key. -/
theorem btreeTally_pairwise (k : String) :
    ∀ l : List (String × Nat),
      l.Pairwise (fun x y => strLt x.1 y.1 = true) →
      (btreeTally k l).Pairwise (fun x y => strLt x.1 y.1 = true) := by
  intro l
  induction l with
  | nil => intro _; simp [btreeTally]
  | cons kv rest ih =>
    obtain ⟨k', c⟩ := kv
    intro hp
    rw [List.pairwise_cons] at hp
    obtain ⟨hk', hrest⟩ := hp
    simp only [btreeTally]
    split
    · rename_i hlt
      rw [List.pairwise_cons]
      refine ⟨?_, List.pairwise_cons.mpr ⟨hk', hrest⟩⟩
      intro y hy
      rcases List.mem_cons.mp hy with rfl | hy
      · exact hlt
      · exact strLt_trans hlt (hk' y hy)
    · split
      · rename_i hnlt heq
        rw [List.pairwise_cons]
        exact ⟨fun y hy => hk' y hy, hrest⟩
      · rename_i hnlt hne
        rw [List.pairwise_cons]
        refine ⟨?_, ih hrest⟩
        intro y hy
        rcases btreeTally_mem k rest y hy with h1 | h1
        · have hkk : strLt k' k = true := by
            have hnlt' : strLt k k' = false := by simpa using hnlt
            cases hlt2 : strLt k' k
            · exact absurd (strLt_total hnlt' hlt2) hne
            · rfl
          rw [h1]
          exact hkk
        · exact hk' y h1

theorem add_function_opUsage (a : Analysis) (body : List Operator) (i : Nat)
    (hP : a.operator_usage.Pairwise (fun x y => strLt x.1 y.1 = true)) :
    (add_function a body i).1.operator_usage.Pairwise
      (fun x y => strLt x.1 y.1 = true) := by
  unfold add_function
  split
  · exact hP
  · show (body.foldl (add_function_op i) a).operator_usage.Pairwise _
    refine foldl_inv
      (P := fun a0 : Analysis =>
        a0.operator_usage.Pairwise (fun x y => strLt x.1 y.1 = true)) ?_ body a hP
    intro s op hs
    cases op <;> (unfold add_function_op; dsimp only; split)
    · exact btreeTally_pairwise _ _ hs
    · exact hs
    · exact btreeTally_pairwise _ _ hs
    · exact hs

theorem analyzeStep_opUsage (st : Analysis × Nat) (p : Payload) (r : Analysis × Nat)
    (hP : st.1.operator_usage.Pairwise (fun x y => strLt x.1 y.1 = true))
    (h : analyzeStep st p = some r) :
    r.1.operator_usage.Pairwise (fun x y => strLt x.1 y.1 = true) := by
  cases p with
  | version n =>
    simp only [analyzeStep, Option.some.injEq] at h
    subst h
    exact hP
  | codeSectionEntry body =>
    simp only [analyzeStep, Option.some.injEq] at h
    subst h
    exact add_function_opUsage st.1 body st.2 hP
  | codeSectionStart c rg =>
    simp only [analyzeStep] at h
    cases hsec : add_section st.1 "CodeSectionStart" (some c) rg with
    | none => rw [hsec] at h; simp at h
    | some a' =>
      rw [hsec] at h
      simp only [Option.map_some', Option.some.injEq] at h
      obtain ⟨ss, tt, ha'⟩ := add_section_eq _ _ _ _ _ hsec
      subst h
      rw [ha']
      exact hP
  | genericSection ty c rg =>
    simp only [analyzeStep] at h
    cases hsec : add_section st.1 ty c rg with
    | none => rw [hsec] at h; simp at h
    | some a' =>
      rw [hsec] at h
      simp only [Option.map_some', Option.some.injEq] at h
      obtain ⟨ss, tt, ha'⟩ := add_section_eq _ _ _ _ _ hsec
      subst h
      rw [ha']
      exact hP
  | importSection imports c rg =>
    simp only [analyzeStep, add_imports] at h
    cases hsec : add_section st.1 "ImportSection" (some c) rg with
    | none => rw [hsec] at h; simp at h
    | some a' =>
      rw [hsec] at h
      simp only [Option.map_some', Option.some.injEq] at h
      obtain ⟨ss, tt, ha'⟩ := add_section_eq _ _ _ _ _ hsec
      obtain ⟨im, j, hfold⟩ := add_imports_fold_eq imports (a', st.2)
      subst h
      split
      · rw [hfold, ha']
        exact hP
      · rw [ha']
        exact hP
  | exportSection exports c rg =>
    simp only [analyzeStep, add_exports] at h
    cases hsec : add_section st.1 "ExportSection" (some c) rg with
    | none => rw [hsec] at h; simp at h
    | some a' =>
      rw [hsec] at h
      simp only [Option.map_some', Option.some.injEq] at h
      obtain ⟨ss, tt, ha'⟩ := add_section_eq _ _ _ _ _ hsec
      obtain ⟨ex, hfold⟩ := add_exports_fold_eq exports a'
      subst h
      split
      · rw [hfold, ha']
        exact hP
      · rw [ha']
        exact hP
  | elementSection elements c rg =>
    simp only [analyzeStep, add_elements] at h
    cases hsec : add_section st.1 "ElementSection" (some c) rg with
    | none => rw [hsec] at h; simp at h
    | some a' =>
      rw [hsec] at h
      simp only [Option.map_some', Option.some.injEq] at h
      obtain ⟨ss, tt, ha'⟩ := add_section_eq _ _ _ _ _ hsec
      obtain ⟨d, hfold⟩ := add_elements_fold_eq elements a'
      subst h
      rw [hfold, ha']
      exact hP
  | endMarker => simp [analyzeStep] at h

theorem insertByCountDesc_perm (x : String × Nat) :
    ∀ l : List (String × Nat), (insertByCountDesc x l).Perm (x :: l) := by
  intro l
  induction l with
  | nil => simp [insertByCountDesc]
  | cons y ys ih =>
    unfold insertByCountDesc
    split
    · exact List.Perm.refl _
    · exact (ih.cons y).trans (List.Perm.swap x y ys)

theorem sortByCountDesc_perm (l : List (String × Nat)) : (sortByCountDesc l).Perm l := by
  induction l with
  | nil => simp [sortByCountDesc]
  | cons x xs ih =>
    show (insertByCountDesc x (sortByCountDesc xs)).Perm (x :: xs)
    exact (insertByCountDesc_perm x _).trans (ih.cons x)

theorem insertByCountDesc_pairwise (x : String × Nat) :
    ∀ l : List (String × Nat),
      l.Pairwise (fun p q => q.2 < p.2 ∨ (q.2 = p.2 ∧ strLt p.1 q.1 = true)) →
      (∀ y ∈ l, strLt x.1 y.1 = true) →
      (insertByCountDesc x l).Pairwise
        (fun p q => q.2 < p.2 ∨ (q.2 = p.2 ∧ strLt p.1 q.1 = true)) := by
  intro l
  induction l with
  | nil => intro _ _; simp [insertByCountDesc]
  | cons y ys ih =>
    intro hp hx
    rw [List.pairwise_cons] at hp
    obtain ⟨hy, hys⟩ := hp
    unfold insertByCountDesc
    split
    · rename_i hle
      rw [List.pairwise_cons]
      refine ⟨?_, List.pairwise_cons.mpr ⟨hy, hys⟩⟩
      intro z hz
      rcases List.mem_cons.mp hz with rfl | hz
      · rcases Nat.lt_or_ge z.2 x.2 with h | h
        · left; exact h
        · right
          exact ⟨by omega, hx z (List.mem_cons_self _ _)⟩
      · rcases hy z hz with h | h
        · rcases Nat.lt_or_ge z.2 x.2 with h' | h'
          · left; exact h'
          · right
            refine ⟨by omega, hx z (List.mem_cons_of_mem _ hz)⟩
        · rcases Nat.lt_or_ge z.2 x.2 with h' | h'
          · left; exact h'
          · right
            refine ⟨by omega, hx z (List.mem_cons_of_mem _ hz)⟩
    · rename_i hgt
      rw [List.pairwise_cons]
      refine ⟨?_, ih hys (fun z hz => hx z (List.mem_cons_of_mem _ hz))⟩
      intro z hz
      have hz' : z = x ∨ z ∈ ys := by
        have := (insertByCountDesc_perm x ys).mem_iff.mp hz
        simpa using this
      rcases hz' with rfl | hz'
      · left; omega
      · exact hy z hz'

theorem sortByCountDesc_pairwise :
    ∀ l : List (String × Nat),
      l.Pairwise (fun p q => strLt p.1 q.1 = true) →
      (sortByCountDesc l).Pairwise
        (fun p q => q.2 < p.2 ∨ (q.2 = p.2 ∧ strLt p.1 q.1 = true)) := by
  intro l
  induction l with
  | nil => intro _; simp [sortByCountDesc]
  | cons x xs ih =>
    intro hp
    rw [List.pairwise_cons] at hp
    obtain ⟨hx, hxs⟩ := hp
    show (insertByCountDesc x (sortByCountDesc xs)).Pairwise _
    refine insertByCountDesc_pairwise x _ (ih hxs) ?_
    intro y hy
    exact hx y ((sortByCountDesc_perm xs).mem_iff.mp hy)

/-- C5 (amended): after post-processing, the sorted operator-usage list
contains every (mnemonic, count) pair of the histogram (it is a
permutation of it), ordered descending by count; entries with equal
counts appear in ascending lexicographic mnemonic order — the
`BTreeMap`'s key iteration order, which the stable sort preserves — not
in first-seen insertion order (see the counterexample). -/
theorem sorted_operator_usage_desc_lex (m : Module) (s f o t : Bool)
    (h : (analyze m s f o t).isSome = true) :
    ∃ a, analyze m s f o t = some a ∧
      a.sorted_operator_usage.Perm a.operator_usage ∧
      a.sorted_operator_usage.Pairwise
        (fun p q => q.2 < p.2 ∨ (q.2 = p.2 ∧ strLt p.1 q.1 = true)) := by
  cases han : analyze m s f o t with
  | none => rw [han] at h; simp at h
  | some a =>
    refine ⟨a, rfl, ?_⟩
    unfold analyze analyzeCore at han
    cases hfold : List.foldlM analyzeStep
        ({ include_sections := s, include_functions := f, include_operators := o,
           include_function_call_tree := t }, 0) m.sections with
    | none => rw [hfold] at han; simp at han
    | some r =>
      rw [hfold] at han
      simp only [Option.map_some', Option.some.injEq] at han
      have hkey : r.1.operator_usage.Pairwise (fun x y => strLt x.1 y.1 = true) :=
        foldlM_option_inv
          (P := fun st : Analysis × Nat =>
            st.1.operator_usage.Pairwise (fun x y => strLt x.1 y.1 = true))
          (fun s' x r' hs hx => analyzeStep_opUsage s' x r' hs hx)
          m.sections _ r (by simp) hfold
      have hsorted : a.sorted_operator_usage = sortByCountDesc r.1.operator_usage := by
        rw [← han]; rfl
      have husage : a.operator_usage = r.1.operator_usage := by
        rw [← han]; rfl
      rw [hsorted, husage]
      exact ⟨sortByCountDesc_perm _, sortByCountDesc_pairwise _ hkey⟩

/-- Witness for C5's amended theorem at the tie-order module. -/
theorem sorted_operator_usage_desc_lex_witness :
    (analyze moduleTieOrder false true true false).isSome = true ∧
    ∃ a, analyze moduleTieOrder false true true false = some a ∧
      a.sorted_operator_usage.Perm a.operator_usage ∧
      a.sorted_operator_usage.Pairwise
        (fun p q => q.2 < p.2 ∨ (q.2 = p.2 ∧ strLt p.1 q.1 = true)) :=
  ⟨by decide, sorted_operator_usage_desc_lex moduleTieOrder false true true false (by decide)⟩

/-! ### The function index space is one flat counter (C6) -/

theorem range'_glue (s m n : Nat) :
    List.range' s m ++ List.range' (s + m) n = List.range' s (m + n) := by
  rw [Nat.add_comm m n]
  have h := List.range'_append s m n 1
  simp only [one_mul] at h
  exact h

theorem importsAssign_spec (imports : List ImportEntry) :
    ∀ (acc : List (FuncKind × Nat)) (i : Nat),
      ∃ Δ, imports.foldl
          (fun st imp =>
            if imp.isFunc then (st.1 ++ [(FuncKind.imported, st.2)], st.2 + 1) else st)
          (acc, i) = (acc ++ Δ, i + Δ.length) ∧
        Δ.map Prod.snd = List.range' i Δ.length ∧
        ∀ x ∈ Δ, x.1 = FuncKind.imported := by
  induction imports with
  | nil =>
    intro acc i
    exact ⟨[], by simp, by simp, by simp⟩
  | cons imp rest ih =>
    intro acc i
    cases himp : imp.isFunc
    · simp only [List.foldl_cons, himp, Bool.false_eq_true, if_false]
      exact ih acc i
    · simp only [List.foldl_cons, himp, if_true]
      obtain ⟨Δ, hfold, hsnd, hkind⟩ := ih (acc ++ [(FuncKind.imported, i)]) (i + 1)
      refine ⟨(FuncKind.imported, i) :: Δ, ?_, ?_, ?_⟩
      · rw [hfold]
        congr 1
        · simp
        · simp only [List.length_cons]
          omega
      · simp only [List.map_cons, List.length_cons, hsnd]
        rfl
      · intro x hx
        rcases List.mem_cons.mp hx with rfl | hx
        · rfl
        · exact hkind x hx

/-- The assignment fold appends a block of entries numbered
consecutively from the incoming counter, and records which payload kind
produced each entry. -/
theorem indexAssignment_spec (ps : List Payload) :
    ∀ (acc : List (FuncKind × Nat)) (i : Nat),
      ∃ Δ, ps.foldl (indexAssignmentStep true) (acc, i) = (acc ++ Δ, i + Δ.length) ∧
        Δ.map Prod.snd = List.range' i Δ.length ∧
        (∀ x ∈ Δ, (x.1 = FuncKind.imported →
            ∃ imports c r, Payload.importSection imports c r ∈ ps) ∧
          (x.1 = FuncKind.implemented →
            ∃ body, Payload.codeSectionEntry body ∈ ps)) := by
  induction ps with
  | nil =>
    intro acc i
    exact ⟨[], by simp, by simp, by simp⟩
  | cons p rest ih =>
    intro acc i
    cases p with
    | importSection imports c r =>
      simp only [List.foldl_cons, indexAssignmentStep, if_true]
      obtain ⟨Δ₁, hfold₁, hsnd₁, hkind₁⟩ := importsAssign_spec imports acc i
      rw [hfold₁]
      obtain ⟨Δ₂, hfold₂, hsnd₂, hkind₂⟩ := ih (acc ++ Δ₁) (i + Δ₁.length)
      refine ⟨Δ₁ ++ Δ₂, ?_, ?_, ?_⟩
      · rw [hfold₂]
        congr 1
        · simp
        · simp only [List.length_append]
          omega
      · rw [List.map_append, hsnd₁, hsnd₂, List.length_append]
        exact range'_glue i Δ₁.length Δ₂.length
      · intro x hx
        rcases List.mem_append.mp hx with hx | hx
        · exact ⟨fun _ => ⟨imports, c, r, List.mem_cons_self _ _⟩,
            fun himpl => by rw [hkind₁ x hx] at himpl; cases himpl⟩
        · refine ⟨fun him => ?_, fun himpl => ?_⟩
          · obtain ⟨i', c', r', hmem⟩ := ((hkind₂ x hx).1 him)
            exact ⟨i', c', r', List.mem_cons_of_mem _ hmem⟩
          · obtain ⟨body, hmem⟩ := ((hkind₂ x hx).2 himpl)
            exact ⟨body, List.mem_cons_of_mem _ hmem⟩
    | codeSectionEntry body =>
      simp only [List.foldl_cons, indexAssignmentStep, if_true]
      obtain ⟨Δ₂, hfold₂, hsnd₂, hkind₂⟩ := ih (acc ++ [(FuncKind.implemented, i)]) (i + 1)
      refine ⟨(FuncKind.implemented, i) :: Δ₂, ?_, ?_, ?_⟩
      · rw [hfold₂]
        congr 1
        · simp
        · simp only [List.length_cons]
          omega
      · simp only [List.map_cons, List.length_cons, hsnd₂]
        rfl
      · intro x hx
        rcases List.mem_cons.mp hx with rfl | hx
        · exact ⟨fun him => FuncKind.noConfusion him, fun _ => ⟨body, List.mem_cons_self _ _⟩⟩
        · refine ⟨fun him => ?_, fun himpl => ?_⟩
          · obtain ⟨i', c', r', hmem⟩ := ((hkind₂ x hx).1 him)
            exact ⟨i', c', r', List.mem_cons_of_mem _ hmem⟩
          · obtain ⟨body', hmem⟩ := ((hkind₂ x hx).2 himpl)
            exact ⟨body', List.mem_cons_of_mem _ hmem⟩
    | version n =>
      simp only [List.foldl_cons, indexAssignmentStep]
      obtain ⟨Δ, h1, h2, h3⟩ := ih acc i
      refine ⟨Δ, h1, h2, fun x hx => ?_⟩
      refine ⟨fun him => ?_, fun himpl => ?_⟩
      · obtain ⟨i', c', r', hmem⟩ := ((h3 x hx).1 him)
        exact ⟨i', c', r', List.mem_cons_of_mem _ hmem⟩
      · obtain ⟨body', hmem⟩ := ((h3 x hx).2 himpl)
        exact ⟨body', List.mem_cons_of_mem _ hmem⟩
    | codeSectionStart c r =>
      simp only [List.foldl_cons, indexAssignmentStep]
      obtain ⟨Δ, h1, h2, h3⟩ := ih acc i
      refine ⟨Δ, h1, h2, fun x hx => ?_⟩
      refine ⟨fun him => ?_, fun himpl => ?_⟩
      · obtain ⟨i', c', r', hmem⟩ := ((h3 x hx).1 him)
        exact ⟨i', c', r', List.mem_cons_of_mem _ hmem⟩
      · obtain ⟨body', hmem⟩ := ((h3 x hx).2 himpl)
        exact ⟨body', List.mem_cons_of_mem _ hmem⟩
    | exportSection exports c r =>
      simp only [List.foldl_cons, indexAssignmentStep]
      obtain ⟨Δ, h1, h2, h3⟩ := ih acc i
      refine ⟨Δ, h1, h2, fun x hx => ?_⟩
      refine ⟨fun him => ?_, fun himpl => ?_⟩
      · obtain ⟨i', c', r', hmem⟩ := ((h3 x hx).1 him)
        exact ⟨i', c', r', List.mem_cons_of_mem _ hmem⟩
      · obtain ⟨body', hmem⟩ := ((h3 x hx).2 himpl)
        exact ⟨body', List.mem_cons_of_mem _ hmem⟩
    | elementSection elements c r =>
      simp only [List.foldl_cons, indexAssignmentStep]
      obtain ⟨Δ, h1, h2, h3⟩ := ih acc i
      refine ⟨Δ, h1, h2, fun x hx => ?_⟩
      refine ⟨fun him => ?_, fun himpl => ?_⟩
      · obtain ⟨i', c', r', hmem⟩ := ((h3 x hx).1 him)
        exact ⟨i', c', r', List.mem_cons_of_mem _ hmem⟩
      · obtain ⟨body', hmem⟩ := ((h3 x hx).2 himpl)
        exact ⟨body', List.mem_cons_of_mem _ hmem⟩
    | genericSection ty c r =>
      simp only [List.foldl_cons, indexAssignmentStep]
      obtain ⟨Δ, h1, h2, h3⟩ := ih acc i
      refine ⟨Δ, h1, h2, fun x hx => ?_⟩
      refine ⟨fun him => ?_, fun himpl => ?_⟩
      · obtain ⟨i', c', r', hmem⟩ := ((h3 x hx).1 him)
        exact ⟨i', c', r', List.mem_cons_of_mem _ hmem⟩
      · obtain ⟨body', hmem⟩ := ((h3 x hx).2 himpl)
        exact ⟨body', List.mem_cons_of_mem _ hmem⟩
    | endMarker =>
      simp only [List.foldl_cons, indexAssignmentStep]
      obtain ⟨Δ, h1, h2, h3⟩ := ih acc i
      refine ⟨Δ, h1, h2, fun x hx => ?_⟩
      refine ⟨fun him => ?_, fun himpl => ?_⟩
      · obtain ⟨i', c', r', hmem⟩ := ((h3 x hx).1 him)
        exact ⟨i', c', r', List.mem_cons_of_mem _ hmem⟩
      · obtain ⟨body', hmem⟩ := ((h3 x hx).2 himpl)
        exact ⟨body', List.mem_cons_of_mem _ hmem⟩

/-- C6: with function analysis enabled, the function index space is one
flat numbering by a single shared counter in file order: the assigned
indices are exactly `0, 1, 2, ...` (hence no two functions share an
index), and when every import section precedes every code-section entry
(the order of a well-formed module), every function-kind import's index
is strictly below every implemented function's index. -/
theorem function_index_space_flat (ps1 ps2 : List Payload)
    (h1 : ∀ body, Payload.codeSectionEntry body ∉ ps1)
    (h2 : ∀ imports c r, Payload.importSection imports c r ∉ ps2) :
    ((indexAssignment true (ps1 ++ ps2)).map Prod.snd =
      List.range (indexAssignment true (ps1 ++ ps2)).length) ∧
    ((indexAssignment true (ps1 ++ ps2)).map Prod.snd).Nodup ∧
    (∀ p ∈ indexAssignment true (ps1 ++ ps2), p.1 = FuncKind.imported →
      ∀ q ∈ indexAssignment true (ps1 ++ ps2), q.1 = FuncKind.implemented →
        p.2 < q.2) := by
  unfold indexAssignment
  rw [List.foldl_append]
  obtain ⟨Δ₁, hfold₁, hsnd₁, hkind₁⟩ := indexAssignment_spec ps1 [] 0
  rw [hfold₁]
  obtain ⟨Δ₂, hfold₂, hsnd₂, hkind₂⟩ := indexAssignment_spec ps2 ([] ++ Δ₁) (0 + Δ₁.length)
  rw [hfold₂]
  simp only [List.nil_append] at *
  have hcat : (Δ₁ ++ Δ₂).map Prod.snd = List.range' 0 (Δ₁.length + Δ₂.length) := by
    rw [List.map_append, hsnd₁, hsnd₂]
    have := range'_glue 0 Δ₁.length Δ₂.length
    simpa using this
  refine ⟨?_, ?_, ?_⟩
  · rw [hcat]
    rw [List.length_append, List.range_eq_range']
  · rw [hcat, ← List.range_eq_range']
    exact List.nodup_range _
  · intro p hp hpk q hq hqk
    have hpmem : p ∈ Δ₁ := by
      rcases List.mem_append.mp hp with h | h
      · exact h
      · obtain ⟨i', c', r', hmem⟩ := (hkind₂ p h).1 hpk
        exact absurd hmem (h2 i' c' r')
    have hqmem : q ∈ Δ₂ := by
      rcases List.mem_append.mp hq with h | h
      · obtain ⟨body, hmem⟩ := (hkind₁ q h).2 hqk
        exact absurd hmem (h1 body)
      · exact h
    have hplt : p.2 < Δ₁.length := by
      have : p.2 ∈ List.range' 0 Δ₁.length := by
        rw [← hsnd₁]
        exact List.mem_map_of_mem Prod.snd hpmem
      rw [List.mem_range'_1] at this
      omega
    have hqge : Δ₁.length ≤ q.2 := by
      have : q.2 ∈ List.range' Δ₁.length Δ₂.length := by
        have h0 : q.2 ∈ List.range' (0 + Δ₁.length) Δ₂.length := by
          rw [← hsnd₂]
          exact List.mem_map_of_mem Prod.snd hqmem
        simpa using h0
      rw [List.mem_range'_1] at this
      omega
    omega

/-- Witness for C6 at a one-import, two-code-entry module layout. -/
theorem function_index_space_flat_witness :
    (∀ body, Payload.codeSectionEntry body ∉
      [Payload.importSection [{ isFunc := true, name := "host" }] 1
        { start := 10, stop := 12 }]) ∧
    (∀ imports c r, Payload.importSection imports c r ∉
      ([Payload.codeSectionEntry [], Payload.codeSectionEntry []] : List Payload)) ∧
    (((indexAssignment true
        ([Payload.importSection [{ isFunc := true, name := "host" }] 1
            { start := 10, stop := 12 }] ++
          [Payload.codeSectionEntry [], Payload.codeSectionEntry []])).map Prod.snd =
      List.range (indexAssignment true
        ([Payload.importSection [{ isFunc := true, name := "host" }] 1
            { start := 10, stop := 12 }] ++
          [Payload.codeSectionEntry [], Payload.codeSectionEntry []])).length) ∧
    ((indexAssignment true
        ([Payload.importSection [{ isFunc := true, name := "host" }] 1
            { start := 10, stop := 12 }] ++
          [Payload.codeSectionEntry [], Payload.codeSectionEntry []])).map Prod.snd).Nodup ∧
    (∀ p ∈ indexAssignment true
        ([Payload.importSection [{ isFunc := true, name := "host" }] 1
            { start := 10, stop := 12 }] ++
          [Payload.codeSectionEntry [], Payload.codeSectionEntry []]),
      p.1 = FuncKind.imported →
      ∀ q ∈ indexAssignment true
        ([Payload.importSection [{ isFunc := true, name := "host" }] 1
            { start := 10, stop := 12 }] ++
          [Payload.codeSectionEntry [], Payload.codeSectionEntry []]),
        q.1 = FuncKind.implemented → p.2 < q.2)) :=
  ⟨by intro body h; simp at h,
   by intro imports c r h; simp at h,
   function_index_space_flat _ _
     (by intro body h; simp at h)
     (by intro imports c r h; simp at h)⟩

/-! ### Call-tree rendering terminates (C7) -/

theorem assocLookup_mem_flat (g : List (Nat × List Nat)) (k : Nat) (v : List Nat)
    (h : assocLookup g k = some v) : ∀ x ∈ v, x ∈ g.flatMap (fun kv => kv.2) := by
  unfold assocLookup at h
  cases hf : g.find? (fun kv => kv.1 = k) with
  | none => rw [hf] at h; simp at h
  | some kv =>
    rw [hf] at h
    simp only [Option.map_some', Option.some.injEq] at h
    intro x hx
    have hkv : kv ∈ g := List.mem_of_find?_eq_some hf
    exact List.mem_flatMap.mpr ⟨kv, hkv, by rw [h]; exact hx⟩

theorem filter_chain_lt (l : List Nat) (c : List Nat) (a : Nat)
    (ha : a ∈ l) (hc : a ∉ c) :
    (l.filter (fun x => x ∉ c ++ [a])).length < (l.filter (fun x => x ∉ c)).length := by
  have hpt : l.filter (fun x => decide (x ∉ c ++ [a])) =
      (l.filter (fun x => decide (x ∉ c))).filter (fun x => decide (x ≠ a)) := by
    rw [List.filter_filter]
    apply List.filter_congr
    intro x _
    simp [List.mem_append, not_or, and_comm]
  rw [hpt]
  apply List.length_filter_lt_length_iff_exists.mpr
  exact ⟨a, List.mem_filter.mpr ⟨ha, by simpa using hc⟩, by simp⟩

/-- If every descent out of the current chain succeeds, the whole loop
body succeeds. -/
theorem renderStep_isSome (g : List (Nat × List Nat))
    (child : List Nat → List Nat → Option (List TreeLine)) (chain : List Nat) :
    ∀ l : List Nat,
      (∀ called ∈ l, called ∉ chain →
        (child (chain ++ [called]) ((assocLookup g called).getD [])).isSome = true) →
      (renderStep g child chain l).isSome = true := by
  intro l
  induction l with
  | nil => intro _; simp [renderStep]
  | cons called rest ihl =>
    intro h
    have hrest : (renderStep g child chain rest).isSome = true :=
      ihl (fun x hx hdc => h x (List.mem_cons_of_mem _ hx) hdc)
    obtain ⟨w, hw⟩ := Option.isSome_iff_exists.mp hrest
    by_cases hc : called ∈ chain
    · simp only [renderStep, if_pos hc, hw, Option.map_some', Option.isSome_some]
    · obtain ⟨sub, hsub⟩ := Option.isSome_iff_exists.mp
        (h called (List.mem_cons_self _ _) hc)
      simp only [renderStep, if_neg hc, hsub, hw, Option.map_some', Option.isSome_some]

/-- A fuel of one more than the number of distinct callees always
suffices: each recursion step pushes onto the chain a callee not yet on
it, so the count of distinct callees off the chain strictly drops. -/
theorem renderCallees_isSome (g : List (Nat × List Nat)) :
    ∀ (fuel : Nat) (chain l : List Nat),
      (∀ x ∈ l, x ∈ g.flatMap (fun kv => kv.2)) →
      ((g.flatMap (fun kv => kv.2)).dedup.filter (fun x => x ∉ chain)).length < fuel →
      (renderCallees g fuel chain l).isSome = true := by
  intro fuel
  induction fuel with
  | zero => intro chain l _ hm; omega
  | succ fuel ih =>
    intro chain l hl hm
    show (renderStep g (renderCallees g fuel) chain l).isSome = true
    apply renderStep_isSome
    intro called hcl hc
    apply ih
    · cases hlk : assocLookup g called with
      | none => simp
      | some v =>
        intro x hx
        exact assocLookup_mem_flat g called v hlk x (by simpa [hlk] using hx)
    · have hdlt := filter_chain_lt (g.flatMap (fun kv => kv.2)).dedup chain called
        (List.mem_dedup.mpr (hl called hcl)) hc
      omega

/-- C7: for every finite call graph — cyclic ones included — call-tree
rendering terminates: the fuel `callTreeFuel g` (one more than the
number of distinct callees in the graph) is always sufficient, because
at each step only the active ancestor chain is consulted, a callee
already on the chain is rendered as a "cyclic call" terminus without
recursing, and recursion only happens on callees not on the chain.  On
the spec's example cycle A→B→A the output is exactly one normal line
and one cyclic terminus. -/
theorem print_called_list_terminates :
    (∀ (g : List (Nat × List Nat)) (chain : List Nat),
      (print_called_list g (callTreeFuel g) chain).isSome = true) ∧
    print_called_list cyclicGraph (callTreeFuel cyclicGraph) [0] =
      some [{ level := 1, index := 1, cyclic := false },
            { level := 2, index := 0, cyclic := true }] := by
  constructor
  · intro g chain
    unfold print_called_list
    apply renderCallees_isSome
    · cases hl : assocLookup g (chain.getLast?.getD 1) with
      | none => simp
      | some v =>
        intro x hx
        exact assocLookup_mem_flat g _ v hl x (by simpa [hl] using hx)
    · unfold callTreeFuel
      have := List.length_filter_le (fun x => decide (x ∉ chain))
        (g.flatMap (fun kv => kv.2)).dedup
      omega
  · decide

/-! ### Parse records the last version marker (C9) -/

theorem parse_fold_version (stream : List (Option Payload)) :
    ∀ m0 : Module, none ∉ stream →
      ∃ m', stream.foldlM parsePayloadStep m0 = .ok m' ∧
        m'.version = stream.foldl versionStep m0.version := by
  induction stream with
  | nil =>
    intro m0 _
    exact ⟨m0, rfl, rfl⟩
  | cons p? rest ih =>
    intro m0 hn
    have hn' : none ∉ rest := fun h => hn (List.mem_cons_of_mem _ h)
    cases p? with
    | none => exact absurd (List.mem_cons_self _ _) hn
    | some p =>
      have hstep : ∃ m1, parsePayloadStep m0 (some p) = .ok m1 ∧
          m1.version = versionStep m0.version (some p) := by
        cases p with
        | version n => exact ⟨_, rfl, rfl⟩
        | codeSectionStart c r => exact ⟨_, rfl, rfl⟩
        | codeSectionEntry body => exact ⟨_, rfl, rfl⟩
        | importSection imports c r => exact ⟨_, rfl, rfl⟩
        | exportSection exports c r => exact ⟨_, rfl, rfl⟩
        | elementSection elements c r => exact ⟨_, rfl, rfl⟩
        | genericSection ty c r => exact ⟨_, rfl, rfl⟩
        | endMarker => exact ⟨m0, rfl, rfl⟩
      obtain ⟨m1, hstepEq, hver1⟩ := hstep
      obtain ⟨m', hfold, hver⟩ := ih m1 hn'
      refine ⟨m', ?_, ?_⟩
      · simp only [List.foldlM_cons, hstepEq, Bind.bind, Except.bind]
        exact hfold
      · rw [hver, List.foldl_cons, hver1]

/-- C9: `parse` fails with the invalid-version error iff (on a stream
with no malformed items, which fail earlier with a different error) the
recorded version — the last `Version` marker's number, `0` when there is
none — is zero; and every module a successful `parse` returns has a
nonzero version. -/
theorem parse_invalid_version_iff (source : String) (file_size : Nat)
    (stream : List (Option Payload)) :
    (none ∉ stream →
      (Module.parse source file_size stream = .error .invalidVersion ↔
        recordedVersion stream = 0)) ∧
    (∀ m, Module.parse source file_size stream = .ok m → m.version ≠ 0) := by
  constructor
  · intro hn
    obtain ⟨m', hfold, hver⟩ := parse_fold_version stream
      { source := source, version := 0, file_size := file_size, sections := [] } hn
    unfold Module.parse
    rw [hfold]
    show Module.validate m' = .error .invalidVersion ↔ recordedVersion stream = 0
    unfold Module.validate
    constructor
    · intro h
      by_cases hv : m'.version = 0
      · exact hver.symm.trans hv
      · rw [if_neg hv] at h
        cases h
    · intro h
      have hv : m'.version = 0 := hver.trans h
      rw [if_pos hv]
  · intro m hm
    unfold Module.parse at hm
    cases hfold : List.foldlM parsePayloadStep
        { source := source, version := 0, file_size := file_size, sections := [] } stream with
    | error e => rw [hfold] at hm; cases hm
    | ok m' =>
      rw [hfold] at hm
      replace hm : Module.validate m' = .ok m := hm
      unfold Module.validate at hm
      by_cases hv : m'.version = 0
      · rw [if_pos hv] at hm
        cases hm
      · rw [if_neg hv] at hm
        cases hm
        exact hv

/-- Witness for C9 at a one-marker stream. -/
theorem parse_invalid_version_iff_witness :
    (none ∉ ([some (Payload.version 1)] : List (Option Payload))) ∧
    ((Module.parse "w.wasm" 8 [some (Payload.version 1)] = .error .invalidVersion) ↔
      recordedVersion [some (Payload.version 1)] = 0) :=
  ⟨by decide,
   (parse_invalid_version_iff "w.wasm" 8 [some (Payload.version 1)]).1 (by decide)⟩

/-! ### Compact range rendering groups maximal runs (C8) -/

theorem rangeVecLoop_spec :
    ∀ (l : List Nat) (s e : Nat), s ≤ e → List.Chain' (· < ·) (e :: l) →
      ∃ es, (∀ out, rangeVecLoop l s e out = out ++ es) ∧
        es.flatMap expandEntry = List.range' s (e + 1 - s) ++ l ∧
        List.Chain' (fun p q => entryLast p + 1 < entryFirst q) es ∧
        ∃ hd tl, es = hd :: tl ∧ entryFirst hd = s := by
  intro l
  induction l with
  | nil =>
    intro s e hse _
    refine ⟨[if s = e then .SingleEntry e else .RangeEntry s e], fun out => rfl, ?_, ?_, ?_⟩
    · split
      · rename_i h
        subst h
        simp [expandEntry, show s + 1 - s = 1 from by omega, List.range']
      · simp [expandEntry]
    · simp
    · refine ⟨_, [], rfl, ?_⟩
      split
      · rename_i h
        subst h
        rfl
      · rfl
  | cons i rest ih =>
    intro s e hse hchain
    rw [List.chain'_cons] at hchain
    obtain ⟨hei, hchain'⟩ := hchain
    by_cases hne : i = e + 1
    · subst hne
      obtain ⟨es, hout, hexp, hch, hhd⟩ := ih s (e + 1) (by omega) hchain'
      refine ⟨es, ?_, ?_, hch, hhd⟩
      · intro out
        simp only [rangeVecLoop, ne_eq, not_true_eq_false, if_neg, if_false]
        exact hout out
      · rw [hexp]
        have h1 : e + 1 + 1 - s = (e + 1 - s) + 1 := by omega
        have h2 : List.range' s ((e + 1 - s) + 1) =
            List.range' s (e + 1 - s) ++ List.range' (s + (e + 1 - s)) 1 :=
          (range'_glue s (e + 1 - s) 1).symm
        have h3 : s + (e + 1 - s) = e + 1 := by omega
        rw [h1, h2, h3]
        simp [List.range']
    · have hlt : e + 1 < i := by omega
      obtain ⟨es', hout', hexp', hch', hd', tl', heq', hfirst'⟩ := ih i i le_rfl hchain'
      refine ⟨(if s = e then .SingleEntry e else .RangeEntry s e) :: es', ?_, ?_, ?_, ?_⟩
      · intro out
        have hcond : i ≠ e + 1 := hne
        simp only [rangeVecLoop, ne_eq, hcond, not_false_eq_true, if_pos, if_true]
        rw [hout']
        simp [List.append_assoc]
      · simp only [List.flatMap_cons]
        rw [hexp']
        have hone : i + 1 - i = 1 := by omega
        rw [hone]
        have hexpand : expandEntry (if s = e then .SingleEntry e else .RangeEntry s e) =
            List.range' s (e + 1 - s) := by
          split
          · rename_i h
            subst h
            simp [expandEntry, show s + 1 - s = 1 from by omega, List.range']
          · simp [expandEntry]
        rw [hexpand]
        simp [List.range']
      · rw [heq']
        rw [List.chain'_cons]
        refine ⟨?_, heq' ▸ hch'⟩
        have hlast : entryLast (if s = e then .SingleEntry e else .RangeEntry s e) = e := by
          split <;> rfl
        rw [hlast, hfirst']
        omega
      · refine ⟨_, es', rfl, ?_⟩
        split
        · rename_i h
          subst h
          rfl
        · rfl

/-- C8: compact range rendering groups a strictly increasing index list
into maximal consecutive runs: the entries expand back to exactly the
input (an index joins the open range iff it is the previous index plus
one), and any two adjacent entries are separated by a gap (a break
starts a new entry).  In particular the spec's two examples render as
`1..2, 4..5, 7, 9..10` and `1..2, 4..5, 7, 9` (trailing singleton kept).
The empty list makes `input[0]` panic (`rangeVecFrom [] = none`); the
`Display` call sites all guard against it. -/
theorem rangeVec_grouping :
    (∀ (x : Nat) (xs : List Nat), List.Chain' (· < ·) (x :: xs) →
      ∃ es, rangeVecFrom (x :: xs) = some es ∧
        es.flatMap expandEntry = x :: xs ∧
        List.Chain' (fun p q => entryLast p + 1 < entryFirst q) es) ∧
    rangeVecFrom [1, 2, 4, 5, 7, 9, 10] =
      some [.RangeEntry 1 2, .RangeEntry 4 5, .SingleEntry 7, .RangeEntry 9 10] ∧
    rangeVecFrom [1, 2, 4, 5, 7, 9] =
      some [.RangeEntry 1 2, .RangeEntry 4 5, .SingleEntry 7, .SingleEntry 9] := by
  refine ⟨?_, by decide, by decide⟩
  intro x xs hch
  obtain ⟨es, hout, hexp, hch', _⟩ := rangeVecLoop_spec xs x x le_rfl hch
  refine ⟨es, ?_, ?_, hch'⟩
  · show some (rangeVecLoop xs x x []) = some es
    rw [hout []]
    rfl
  · rw [hexp]
    simp [show x + 1 - x = 1 from by omega, List.range']

/-- Witness for C8's general part at a small strictly increasing list. -/
theorem rangeVec_grouping_witness :
    List.Chain' (· < ·) [2, 3, 5] ∧
    ∃ es, rangeVecFrom [2, 3, 5] = some es ∧
      es.flatMap expandEntry = [2, 3, 5] ∧
      List.Chain' (fun p q => entryLast p + 1 < entryFirst q) es :=
  ⟨by simp, rangeVec_grouping.1 2 [3, 5] (by simp)⟩

/-! ### The assignment fold walks the same counter as `analyze` -/

theorem add_imports_fold_counter :
    ∀ (imports : List ImportEntry) (st : Analysis × Nat),
      (imports.foldl add_imports_entry st).2 =
        st.2 + imports.countP (fun imp => imp.isFunc) := by
  intro imports
  induction imports with
  | nil => intro st; simp
  | cons imp rest ih =>
    intro st
    simp only [List.foldl_cons, List.countP_cons]
    rw [ih]
    unfold add_imports_entry
    cases himp : imp.isFunc
    · simp [himp]
    · simp [himp]
      omega

theorem importsAssign_counter :
    ∀ (imports : List ImportEntry) (st : List (FuncKind × Nat) × Nat),
      (imports.foldl
        (fun st imp =>
          if imp.isFunc then (st.1 ++ [(FuncKind.imported, st.2)], st.2 + 1) else st)
        st).2 = st.2 + imports.countP (fun imp => imp.isFunc) := by
  intro imports
  induction imports with
  | nil => intro st; simp
  | cons imp rest ih =>
    intro st
    simp only [List.foldl_cons, List.countP_cons]
    rw [ih]
    cases himp : imp.isFunc
    · simp [himp]
    · simp [himp]
      omega

theorem add_function_counter (a : Analysis) (body : List Operator) (i : Nat)
    (hf : a.include_functions = true) :
    (add_function a body i).2 = i + 1 := by
  unfold add_function
  rw [if_neg (by rw [hf]; simp)]

theorem indexAssignment_counter_acc (ps : List Payload) :
    ∀ (acc acc' : List (FuncKind × Nat)) (i : Nat),
      (ps.foldl (indexAssignmentStep true) (acc, i)).2 =
        (ps.foldl (indexAssignmentStep true) (acc', i)).2 := by
  induction ps with
  | nil => intro acc acc' i; rfl
  | cons p rest ih =>
    intro acc acc' i
    simp only [List.foldl_cons]
    have hstep : (indexAssignmentStep true (acc, i) p).2 =
        (indexAssignmentStep true (acc', i) p).2 := by
      cases p <;> simp only [indexAssignmentStep, if_true]
      case importSection imports c r =>
        rw [importsAssign_counter imports (acc, i), importsAssign_counter imports (acc', i)]
    obtain ⟨Δ, hfold, _, _⟩ :=
      indexAssignment_spec rest (indexAssignmentStep true (acc, i) p).1
        (indexAssignmentStep true (acc, i) p).2
    obtain ⟨Δ', hfold', hsnd', _⟩ :=
      indexAssignment_spec rest (indexAssignmentStep true (acc', i) p).1
        (indexAssignmentStep true (acc', i) p).2
    rw [show indexAssignmentStep true (acc, i) p =
        ((indexAssignmentStep true (acc, i) p).1, (indexAssignmentStep true (acc, i) p).2)
      from rfl]
    rw [show indexAssignmentStep true (acc', i) p =
        ((indexAssignmentStep true (acc', i) p).1, (indexAssignmentStep true (acc', i) p).2)
      from rfl]
    rw [hstep, ih (indexAssignmentStep true (acc, i) p).1 (indexAssignmentStep true (acc', i) p).1]

/-- Through the whole payload fold, with function analysis enabled, the
`function_index` counter that `analyze` threads evolves exactly like the
assignment fold's counter. -/
theorem analyzeCore_counter (ps : List Payload) :
    ∀ (st r : Analysis × Nat), st.1.include_functions = true →
      List.foldlM analyzeStep st ps = some r →
      r.1.include_functions = true ∧
      r.2 = (ps.foldl (indexAssignmentStep true) ([], st.2)).2 := by
  induction ps with
  | nil =>
    intro st r hf h
    simp only [List.foldlM_nil, pure, Option.some.injEq] at h
    subst h
    exact ⟨hf, rfl⟩
  | cons p rest ih =>
    intro st r hf h
    simp only [List.foldlM_cons] at h
    cases hx : analyzeStep st p with
    | none => rw [hx] at h; exact absurd h (by simp [Bind.bind])
    | some st' =>
      rw [hx] at h
      simp only [Bind.bind, Option.bind_some] at h
      have hstep : st'.1.include_functions = true ∧
          st'.2 = (indexAssignmentStep true ([], st.2) p).2 := by
        cases p with
        | version n =>
          simp only [analyzeStep, Option.some.injEq] at hx
          subst hx
          exact ⟨hf, rfl⟩
        | codeSectionEntry body =>
          simp only [analyzeStep, Option.some.injEq] at hx
          obtain ⟨c, u, n, mm, j, heq⟩ := add_function_eq st.1 body st.2
          subst hx
          constructor
          · rw [heq]
            exact hf
          · rw [add_function_counter st.1 body st.2 hf]
            simp [indexAssignmentStep]
        | codeSectionStart c rg =>
          simp only [analyzeStep] at hx
          cases hsec : add_section st.1 "CodeSectionStart" (some c) rg with
          | none => rw [hsec] at hx; simp at hx
          | some a' =>
            rw [hsec] at hx
            simp only [Option.map_some', Option.some.injEq] at hx
            obtain ⟨ss, tt, ha'⟩ := add_section_eq _ _ _ _ _ hsec
            subst hx
            exact ⟨by rw [ha']; exact hf, rfl⟩
        | genericSection ty c rg =>
          simp only [analyzeStep] at hx
          cases hsec : add_section st.1 ty c rg with
          | none => rw [hsec] at hx; simp at hx
          | some a' =>
            rw [hsec] at hx
            simp only [Option.map_some', Option.some.injEq] at hx
            obtain ⟨ss, tt, ha'⟩ := add_section_eq _ _ _ _ _ hsec
            subst hx
            exact ⟨by rw [ha']; exact hf, rfl⟩
        | importSection imports c rg =>
          simp only [analyzeStep, add_imports] at hx
          cases hsec : add_section st.1 "ImportSection" (some c) rg with
          | none => rw [hsec] at hx; simp at hx
          | some a' =>
            rw [hsec] at hx
            simp only [Option.map_some', Option.some.injEq] at hx
            obtain ⟨ss, tt, ha'⟩ := add_section_eq _ _ _ _ _ hsec
            have hfa : a'.include_functions = true := by rw [ha']; exact hf
            obtain ⟨im, j, hfold⟩ := add_imports_fold_eq imports (a', st.2)
            subst hx
            rw [if_pos hfa]
            constructor
            · rw [hfold]
              simpa using hfa
            · rw [add_imports_fold_counter imports (a', st.2)]
              simp only [indexAssignmentStep, if_true]
              rw [importsAssign_counter imports ([], st.2)]
        | exportSection exports c rg =>
          simp only [analyzeStep, add_exports] at hx
          cases hsec : add_section st.1 "ExportSection" (some c) rg with
          | none => rw [hsec] at hx; simp at hx
          | some a' =>
            rw [hsec] at hx
            simp only [Option.map_some', Option.some.injEq] at hx
            obtain ⟨ss, tt, ha'⟩ := add_section_eq _ _ _ _ _ hsec
            obtain ⟨ex, hfold⟩ := add_exports_fold_eq exports a'
            subst hx
            split
            · rw [hfold]
              exact ⟨by rw [ha']; exact hf, rfl⟩
            · exact ⟨by rw [ha']; exact hf, rfl⟩
        | elementSection elements c rg =>
          simp only [analyzeStep, add_elements] at hx
          cases hsec : add_section st.1 "ElementSection" (some c) rg with
          | none => rw [hsec] at hx; simp at hx
          | some a' =>
            rw [hsec] at hx
            simp only [Option.map_some', Option.some.injEq] at hx
            obtain ⟨ss, tt, ha'⟩ := add_section_eq _ _ _ _ _ hsec
            obtain ⟨d, hfold⟩ := add_elements_fold_eq elements a'
            subst hx
            rw [hfold]
            exact ⟨by rw [ha']; exact hf, rfl⟩
        | endMarker => simp [analyzeStep] at hx
      obtain ⟨hf', hcnt⟩ := hstep
      obtain ⟨hfr, hr⟩ := ih st' r hf' h
      refine ⟨hfr, ?_⟩
      rw [hr, hcnt]
      simp only [List.foldl_cons]
      exact indexAssignment_counter_acc rest _ (indexAssignmentStep true ([], st.2) p).1 _

/-- Bridge: with function analysis enabled, the final `function_index`
value of `analyze`'s pass equals the number of indices `indexAssignment`
hands out — the assignment fold is the same single shared counter the
engine threads through `add_imports` and `add_function`. -/
theorem analyzeCore_functionIndex (m : Module) (s o t : Bool) (r : Analysis × Nat)
    (h : analyzeCore m s true o t = some r) :
    r.2 = (indexAssignment true m.sections).length := by
  have hc := analyzeCore_counter m.sections _ r rfl h
  obtain ⟨Δ, hfold, _, _⟩ := indexAssignment_spec m.sections [] 0
  rw [hc.2]
  unfold indexAssignment
  rw [hfold]
  simp

end Wazm
